import Mathlib

/-!
Shallow embedding of the block storage engine in `src/block.c`.

The engine shards a virtual file into 4096-byte blocks, each stored as a
physical file `<name>.blocks/block_%06d`.  The on-disk state visible to the
engine is modelled as a finite-support map from the C `int` value of the
block number (represented as its value modulo 2^32, i.e. the two's-complement
bit pattern) to the byte list stored in that block file.  Only the length of
the file name matters to the engine (it is used in the `snprintf` calls of
`get_block_dir` / `get_block_path`, whose results are checked against
`MAX_PATH_LEN`), so the handle carries the name length.

Machine-integer details kept from the source:
* `int block_num = offset / BLOCK_SIZE;` converts a `long long` quotient to
  `int`; the conversion is modelled as reduction mod 2^32 (two's complement),
  so block keys live in [0, 2^32).
* `int last_block = (size + BLOCK_SIZE - 1) / BLOCK_SIZE;` likewise.
* `snprintf` silently truncates its output to `MAX_PATH_LEN - 1` characters
  and returns the untruncated length; `get_block_path` checks that length,
  `get_block_dir` does not.

Environment nondeterminism: `unlink` may fail for a reason other than
`ENOENT` (the `errno != ENOENT` branch of `block_truncate`); this is modelled
by a `locked` predicate on block keys: deleting a present, locked block fails
with a non-`ENOENT` error.  All other filesystem calls (fopen/fseek/
fread/fwrite/stat/mkdir) are modelled as succeeding; their absence/short-read
outcomes are part of the model.
-/

def BLOCK_SIZE : Nat := 4096

def MAX_PATH_LEN : Nat := 1024

/-- Number of decimal digits `printf` uses for a value below `10^11`
(closed form; every block number in the model is below `2^32`). -/
def numDigits (n : Nat) : Nat :=
  if n < 10 then 1 else if n < 100 then 2 else if n < 1000 then 3
  else if n < 10000 then 4 else if n < 100000 then 5 else if n < 1000000 then 6
  else if n < 10000000 then 7 else if n < 100000000 then 8 else if n < 1000000000 then 9
  else if n < 10000000000 then 10 else 11

/-- Width of the `%06d` field for the `int` whose bit pattern (mod 2^32) is
`k`: zero-padded to at least 6 characters, a negative value carries a sign. -/
def fieldLenKey (k : Nat) : Nat :=
  if k < 2 ^ 31 then max 6 (numDigits k) else max 6 (numDigits (2 ^ 32 - k) + 1)

/-- Length of the string produced by `get_block_dir`: `snprintf` into a
`MAX_PATH_LEN` buffer of `"<name>.blocks"` (7 extra characters), silently
truncated to `MAX_PATH_LEN - 1`.  The source never checks this length. -/
def get_block_dir (flen : Nat) : Nat := min (flen + 7) (MAX_PATH_LEN - 1)

/-- The check in `get_block_path`: it succeeds iff the `snprintf` would-be length
`strlen(block_dir) + strlen("/block_") + field` is below `MAX_PATH_LEN`. -/
def pathOkKey (flen k : Nat) : Bool :=
  decide (get_block_dir flen + 7 + fieldLenKey k < MAX_PATH_LEN)

/-- The `int` value (as a bit pattern in [0, 2^32)) of a nonnegative
`long long` quantity, as produced by the narrowing conversions in the source. -/
def keyOf (q : Nat) : Nat := q % 2 ^ 32

/-- The signed `int` value of `(n + BLOCK_SIZE - 1) / BLOCK_SIZE` after the
narrowing conversion in `block_truncate`. -/
def wrapI (m : Nat) : Int :=
  if m % 2 ^ 32 < 2 ^ 31 then ((m % 2 ^ 32 : Nat) : Int)
  else ((m % 2 ^ 32 : Nat) : Int) - 2 ^ 32

/-- On-disk state: for each block key, the bytes of the block file if it
exists.  Block files created through a silently truncated path (see
`block_truncate`) live at no valid block path and are invisible to every
operation, so they are not part of the state. -/
def FS : Type := Nat → Option (List Nat)

def emptyFS : FS := fun _ => none

def fsSet (fs : FS) (k : Nat) (v : List Nat) : FS :=
  fun i => if i = k then some v else fs i

def fsDel (fs : FS) (k : Nat) : FS :=
  fun i => if i = k then none else fs i

/-- The in-memory handle (`block_file_t`): it stores only the file name, of
which only the length is relevant to the engine. -/
structure BF where
  flen : Nat

/-- Model of `block_open`: `ensure_block_dir` composes the directory path with an
unchecked, silently truncating `snprintf` and `stat`/`mkdir`s it; the model
records the length of the directory path actually passed to `mkdir`.
Directory creation itself is modelled as succeeding. -/
def block_open (flen : Nat) : Int × BF × Nat :=
  (0, ⟨flen⟩, get_block_dir flen)

/-- Model of `block_close`: returns 0 both for a null and a non-null handle. -/
def block_close (bf : Option BF) : Int :=
  match bf with
  | none => 0
  | some _ => 0

/-- Contents of a full-block read-buffer: `memset` to zero then `fread` of up
to `BLOCK_SIZE` bytes from the block file if it exists. -/
def padBlock (d : List Nat) : List Nat :=
  d.take BLOCK_SIZE ++ List.replicate (BLOCK_SIZE - d.length) 0

def blockOr (o : Option (List Nat)) : List Nat :=
  match o with
  | none => List.replicate BLOCK_SIZE 0
  | some d => padBlock d

/-- The `while (size > 0)` loop of `block_read`.  The first `Nat` is fuel
bounding the number of iterations; every iteration consumes at least one
byte, so fuel `size` suffices and the exhaustion branch is unreachable.
`fseek` is modelled as succeeding (seeking past EOF succeeds); a short
`fread` zero-fills the remainder, an absent block file zero-fills the whole
sub-span, exactly as in the source. -/
def read_loop (flen : Nat) : Nat → FS → Nat → Nat → Option (List Nat)
  | _, _, 0, _ => some []
  | 0, _, _ + 1, _ => none
  | fuel + 1, fs, sz + 1, offset =>
    let bn := keyOf (offset / BLOCK_SIZE)
    let bo := offset % BLOCK_SIZE
    let tr := min (sz + 1) (BLOCK_SIZE - bo)
    if pathOkKey flen bn then
      let chunk : List Nat :=
        match fs bn with
        | none => List.replicate tr 0
        | some d =>
          let got := (d.drop bo).take tr
          got ++ List.replicate (tr - got.length) 0
      match read_loop flen fuel fs (sz + 1 - tr) (offset + tr) with
      | none => none
      | some rest => some (chunk ++ rest)
    else none

/-- Model of `block_read`.  Null handle or negative size/offset fail with -1 before
any filesystem access.  On success the returned count is `size`.  The
partially filled caller buffer on the error path is not modelled (the source
returns -1 and leaves it unspecified). -/
def block_read (bf : Option BF) (size offset : Int) (fs : FS) : Int × List Nat :=
  match bf with
  | none => (-1, [])
  | some h =>
    if size < 0 ∨ offset < 0 then (-1, [])
    else
      match read_loop h.flen size.toNat fs size.toNat offset.toNat with
      | none => (-1, [])
      | some out => (size, out)

/-- The `while (size > 0)` loop of `block_write`, driven by the remaining
bytes to write.  A sub-write that is not exactly a whole aligned block does
read-modify-write: the existing block (zero-padded to `BLOCK_SIZE`) is
overlaid with the chunk and the full `BLOCK_SIZE` buffer is written back;
a whole aligned block is written directly.  Returns whether the loop
completed and the resulting state (previously written blocks persist on
failure). -/
def write_loop (flen : Nat) : Nat → FS → List Nat → Nat → Bool × FS
  | _, fs, [], _ => (true, fs)
  | 0, fs, _ :: _, _ => (false, fs)
  | fuel + 1, fs, b :: rest, offset =>
    let buf := b :: rest
    let bn := keyOf (offset / BLOCK_SIZE)
    let bo := offset % BLOCK_SIZE
    let tw := min buf.length (BLOCK_SIZE - bo)
    if pathOkKey flen bn then
      let chunk := buf.take tw
      let fs' :=
        if bo ≠ 0 ∨ tw ≠ BLOCK_SIZE then
          let data := blockOr (fs bn)
          fsSet fs bn (data.take bo ++ chunk ++ data.drop (bo + tw))
        else fsSet fs bn chunk
      write_loop flen fuel fs' (buf.drop tw) (offset + tw)
    else (false, fs)

/-- Model of `block_write`.  The caller's buffer is `buf`; the source reads exactly
`size` bytes from it.  On success the returned count is `size`. -/
def block_write (bf : Option BF) (buf : List Nat) (size offset : Int) (fs : FS) : Int × FS :=
  match bf with
  | none => (-1, fs)
  | some h =>
    if size < 0 ∨ offset < 0 then (-1, fs)
    else
      let r := write_loop h.flen size.toNat fs (buf.take size.toNat) offset.toNat
      (if r.1 then size else -1, r.2)

/-- The deletion loop of `block_truncate`: `for (block_num = last_block;
block_num < 10000; block_num++)`.  `unlink` of an absent file is `ENOENT`
and the loop continues; `unlink` failing for another reason (a present,
locked block) hits the `errno != ENOENT` branch and `break`s out of the
loop, which is not reported as an error.  A failing `get_block_path`
returns -1. -/
def trunc_loop (flen : Nat) (locked : Nat → Bool) : Nat → Int → FS → Bool × FS
  | 0, _, fs => (true, fs)
  | fuel + 1, bn, fs =>
    let k := (bn % (2 ^ 32 : Int)).toNat
    if pathOkKey flen k then
      match fs k with
      | none => trunc_loop flen locked fuel (bn + 1) fs
      | some _ =>
        if locked k then (true, fs)
        else trunc_loop flen locked fuel (bn + 1) (fsDel fs k)
    else (false, fs)

/-- Model of `block_truncate`.  After the deletion loop, a non-block-aligned size
rewrites the boundary block `(size-1)/BLOCK_SIZE` to its first
`size % BLOCK_SIZE` bytes (reading the existing content zero-padded).  The
`get_block_path` result is ignored there by the source: when the path does
not fit, the source reads and rewrites a silently truncated path instead of
the boundary block.  No valid block path exists for such a file name, so
that stray file is invisible to every operation; the model leaves the block
map unchanged in that case (the return value 0 is unaffected). -/
def block_truncate (bf : Option BF) (size : Int) (fs : FS) (locked : Nat → Bool) : Int × FS :=
  match bf with
  | none => (-1, fs)
  | some h =>
    if size < 0 then (-1, fs)
    else
      let n := size.toNat
      let lastBlock : Int := wrapI ((n + BLOCK_SIZE - 1) / BLOCK_SIZE)
      let fuel := (10000 - lastBlock).toNat
      let r := trunc_loop h.flen locked fuel lastBlock fs
      if r.1 then
        if 0 < n ∧ n % BLOCK_SIZE ≠ 0 then
          let kB := keyOf ((n - 1) / BLOCK_SIZE)
          let lbs := n % BLOCK_SIZE
          if pathOkKey h.flen kB then (0, fsSet r.2 kB ((blockOr (r.2 kB)).take lbs))
          else (0, r.2)
        else (0, r.2)
      else (-1, r.2)

/-- The scan loop of `block_file_size`: `for (block_num = 0; block_num <
10000; block_num++)`, taking the maximum of `(block_num+1)*BLOCK_SIZE` for a
full block and `block_num*BLOCK_SIZE + st_size` for a shorter one. -/
def size_loop (flen : Nat) (fs : FS) : Nat → Nat → Nat → Option Nat
  | 0, _, acc => some acc
  | fuel + 1, bn, acc =>
    if pathOkKey flen bn then
      let acc' :=
        match fs bn with
        | none => acc
        | some d =>
          max acc (if d.length < BLOCK_SIZE then bn * BLOCK_SIZE + d.length
                   else (bn + 1) * BLOCK_SIZE)
      size_loop flen fs fuel (bn + 1) acc'
    else none

/-- Model of `block_file_size`: -1 for a null handle or a failing path composition,
otherwise the maximum computed by the bounded scan. -/
def block_file_size (bf : Option BF) (fs : FS) : Int :=
  match bf with
  | none => -1
  | some h =>
    match size_loop h.flen fs 10000 0 0 with
    | none => -1
    | some m => (m : Int)

/-- The byte a 1-byte read at position `p` returns: 0 if the block file is
absent, the stored byte if the in-block offset is within its physical
length, 0 past its physical length. -/
def readByte (fs : FS) (p : Nat) : Nat :=
  match fs (keyOf (p / BLOCK_SIZE)) with
  | none => 0
  | some d => d.getD (p % BLOCK_SIZE) 0

/-- The contribution of a present block file to the scan of
`block_file_size`: `(block_num+1)*BLOCK_SIZE` for a file of length
`>= BLOCK_SIZE`, `block_num*BLOCK_SIZE + length` for a shorter one. -/
def contrib (k : Nat) (d : List Nat) : Nat :=
  if d.length < BLOCK_SIZE then k * BLOCK_SIZE + d.length else (k + 1) * BLOCK_SIZE

/-- The bytes of `"Hello, World!"`, the spec's concrete scenario. -/
def hello13 : List Nat := [72, 101, 108, 108, 111, 44, 32, 87, 111, 114, 108, 100, 33]

/-- Block-file length invariant: every present block file has physical
length at most `BLOCK_SIZE`. -/
def BlocksInv (fs : FS) : Prop :=
  ∀ k d, fs k = some d → d.length ≤ BLOCK_SIZE

/-- On-disk states reachable from the empty state through the engine's
mutating operations (`block_read`, `block_open` and `block_close` do not
change the block files). -/
inductive Reach : FS → Prop
  | empty : Reach emptyFS
  | write (fs : FS) (bf : Option BF) (buf : List Nat) (size offset : Int)
      (r : Int) (fs' : FS) :
      Reach fs → block_write bf buf size offset fs = (r, fs') → Reach fs'
  | trunc (fs : FS) (bf : Option BF) (size : Int) (locked : Nat → Bool)
      (r : Int) (fs' : FS) :
      Reach fs → block_truncate bf size fs locked = (r, fs') → Reach fs'

/-! ### Arithmetic and path helpers -/

lemma numDigits_le (n : Nat) : numDigits n ≤ 11 := by
  unfold numDigits; split_ifs <;> omega

lemma fieldLenKey_le (k : Nat) : fieldLenKey k ≤ 12 := by
  unfold fieldLenKey
  have h1 := numDigits_le k
  have h2 := numDigits_le (2 ^ 32 - k)
  split_ifs <;> omega

lemma pathOk_short {flen : Nat} (hf : flen ≤ 900) (k : Nat) :
    pathOkKey flen k = true := by
  have h1 : get_block_dir flen ≤ 907 := by
    simp only [get_block_dir, MAX_PATH_LEN]; omega
  have h2 := fieldLenKey_le k
  simp only [pathOkKey, MAX_PATH_LEN, decide_eq_true_eq]; omega

lemma sameBlock (offset j : Nat) (h : offset % BLOCK_SIZE + j < BLOCK_SIZE) :
    (offset + j) / BLOCK_SIZE = offset / BLOCK_SIZE ∧
    (offset + j) % BLOCK_SIZE = offset % BLOCK_SIZE + j := by
  simp only [BLOCK_SIZE] at *; omega

lemma alias_key_mod {p x : Nat} (h : p % 2 ^ 44 = x % 2 ^ 44) :
    keyOf (p / BLOCK_SIZE) = keyOf (x / BLOCK_SIZE) ∧ p % BLOCK_SIZE = x % BLOCK_SIZE := by
  simp only [keyOf, BLOCK_SIZE] at *
  constructor <;> omega

lemma alias_of_key {p x : Nat} (h1 : keyOf (p / BLOCK_SIZE) = keyOf (x / BLOCK_SIZE))
    (h2 : p % BLOCK_SIZE = x % BLOCK_SIZE) : p % 2 ^ 44 = x % 2 ^ 44 := by
  simp only [keyOf, BLOCK_SIZE] at *
  omega

/-! ### List helpers -/

lemma padBlock_length (d : List Nat) : (padBlock d).length = BLOCK_SIZE := by
  simp only [padBlock, List.length_append, List.length_take, List.length_replicate]
  omega

lemma blockOr_length (o : Option (List Nat)) : (blockOr o).length = BLOCK_SIZE := by
  cases o with
  | none => simp [blockOr]
  | some d => simpa [blockOr] using padBlock_length d

lemma padBlock_getElem? (d : List Nat) (q : Nat) (hq : q < BLOCK_SIZE) :
    (padBlock d)[q]? = some (d.getD q 0) := by
  simp only [padBlock, List.getElem?_append, List.length_take, List.getD_eq_getElem?_getD]
  rcases lt_or_le q (min BLOCK_SIZE d.length) with h | h
  · rw [if_pos h, List.getElem?_take_of_lt (by omega)]
    have hd : q < d.length := by omega
    simp [List.getElem?_eq_getElem hd]
  · rw [if_neg (by omega), List.getElem?_replicate, if_pos (by omega)]
    have hd : d.length ≤ q := by omega
    simp [List.getElem?_eq_none hd]

lemma blockOr_getD (o : Option (List Nat)) (q : Nat) (hq : q < BLOCK_SIZE) :
    (blockOr o).getD q 0 = (match o with | none => 0 | some d => d.getD q 0) := by
  cases o with
  | none =>
    simp only [blockOr, List.getD_eq_getElem?_getD, List.getElem?_replicate]
    rw [if_pos hq]; rfl
  | some d =>
    simp only [blockOr, List.getD_eq_getElem?_getD, padBlock_getElem? d q hq]
    rfl

lemma readChunk_length (d : List Nat) (bo tr : Nat) :
    ((d.drop bo).take tr ++ List.replicate (tr - ((d.drop bo).take tr).length) 0).length
      = tr := by
  simp only [List.length_append, List.length_take, List.length_drop, List.length_replicate]
  omega

lemma readChunk_eq_map (d : List Nat) (bo tr : Nat) :
    ((d.drop bo).take tr ++ List.replicate (tr - ((d.drop bo).take tr).length) 0)
      = (List.range tr).map (fun j => d.getD (bo + j) 0) := by
  apply List.ext_getElem?
  intro n
  rcases lt_or_le n tr with hn | hn
  · rw [List.getElem?_map, List.getElem?_range hn]
    rw [List.getElem?_append, List.length_take, List.length_drop]
    rcases lt_or_le n (min tr (d.length - bo)) with h | h
    · rw [if_pos h, List.getElem?_take_of_lt (by omega), List.getElem?_drop]
      have hd : bo + n < d.length := by omega
      simp [List.getElem?_eq_getElem hd, List.getD_eq_getElem?_getD]
    · rw [if_neg (by omega), List.getElem?_replicate, if_pos (by omega)]
      have hd : d.length ≤ bo + n := by omega
      simp [List.getD_eq_getElem?_getD, List.getElem?_eq_none hd]
  · rw [List.getElem?_eq_none (by rw [readChunk_length]; omega),
      List.getElem?_eq_none (by simp only [List.length_map, List.length_range]; omega)]

lemma map_getD_range (l : List α) (n : Nat) (a : α) (h : l.length = n) :
    (List.range n).map (fun j => l.getD j a) = l := by
  apply List.ext_getElem?
  intro i
  simp only [List.getElem?_map]
  rcases lt_or_le i n with hi | hi
  · rw [List.getElem?_range hi]
    have : i < l.length := by omega
    simp [List.getD_eq_getElem?_getD, List.getElem?_eq_getElem this]
  · rw [List.getElem?_eq_none (by simpa using hi), List.getElem?_eq_none (by omega)]
    rfl

lemma map_zero_range (n : Nat) : (List.range n).map (fun _ => (0 : Nat)) = List.replicate n 0 := by
  apply List.ext_getElem?
  intro i
  simp only [List.getElem?_map, List.getElem?_replicate]
  rcases lt_or_le i n with hi | hi
  · rw [List.getElem?_range hi, if_pos hi]; rfl
  · rw [List.getElem?_eq_none (by simpa using hi), if_neg (by omega)]; rfl

/-! ### Reads compute the pointwise logical content -/

lemma bo_lt (offset : Nat) : offset % BLOCK_SIZE < BLOCK_SIZE :=
  Nat.mod_lt _ (by simp [BLOCK_SIZE])

lemma read_loop_eq_map_ok {flen : Nat} :
    ∀ fuel sz offset (fs : FS), sz ≤ fuel →
      (∀ j, j < sz → pathOkKey flen (keyOf ((offset + j) / BLOCK_SIZE)) = true) →
      read_loop flen fuel fs sz offset
        = some ((List.range sz).map fun j => readByte fs (offset + j)) := by
  intro fuel
  induction fuel with
  | zero =>
    intro sz offset fs hsz hok
    have h0 : sz = 0 := by omega
    subst h0
    simp [read_loop]
  | succ fuel ih =>
    intro sz offset fs hsz hok
    match sz with
    | 0 => simp [read_loop]
    | sz' + 1 =>
      have hbo := bo_lt offset
      set bn := keyOf (offset / BLOCK_SIZE) with hbn
      set bo := offset % BLOCK_SIZE with hbo'
      set tr := min (sz' + 1) (BLOCK_SIZE - bo) with htr
      have htr1 : 1 ≤ tr := by omega
      have htrle : tr ≤ sz' + 1 := by omega
      have hbotr : bo + tr ≤ BLOCK_SIZE := by omega
      have hok0 : pathOkKey flen bn = true := by
        have h := hok 0 (by omega)
        rw [Nat.add_zero] at h
        rw [hbn]
        exact h
      have hok' : ∀ j, j < sz' + 1 - tr →
          pathOkKey flen (keyOf ((offset + tr + j) / BLOCK_SIZE)) = true := by
        intro j hj
        have h := hok (tr + j) (by omega)
        rwa [← Nat.add_assoc] at h
      simp only [read_loop, ← hbn, ← hbo', ← htr, hok0, if_true]
      have hsplit : List.range (sz' + 1)
          = List.range tr ++ (List.range (sz' + 1 - tr)).map (tr + ·) := by
        conv_lhs => rw [show sz' + 1 = tr + (sz' + 1 - tr) by omega]
        exact List.range_add _ _
      have hkey : ∀ j, j < tr → readByte fs (offset + j)
          = (match fs bn with
             | none => 0
             | some d => d.getD (bo + j) 0) := by
        intro j hj
        have hsb := sameBlock offset j (by omega)
        unfold readByte
        rw [hsb.1, hsb.2, ← hbn, ← hbo']
      have hrest : (List.range (sz' + 1 - tr)).map
            (fun j => readByte fs (offset + tr + j))
          = (List.range (sz' + 1 - tr)).map
            ((fun j => readByte fs (offset + j)) ∘ (fun x => tr + x)) :=
        List.map_congr_left fun x _ => by
          simp only [Function.comp_apply]; rw [Nat.add_assoc]
      have hchunk : (match fs bn with
          | none => List.replicate tr 0
          | some d =>
            List.take tr (List.drop bo d)
              ++ List.replicate (tr - (List.take tr (List.drop bo d)).length) 0)
          = (List.range tr).map (fun j => readByte fs (offset + j)) := by
        cases hfs : fs bn with
        | none =>
          have hzero : ∀ x ∈ List.range tr,
              readByte fs (offset + x) = (fun _ : Nat => (0 : Nat)) x := fun x hx => by
            rw [hkey x (List.mem_range.mp hx), hfs]
          rw [List.map_congr_left hzero, map_zero_range]
        | some d =>
          have hsome : ∀ x ∈ List.range tr,
              readByte fs (offset + x) = (fun j => d.getD (bo + j) 0) x := fun x hx => by
            rw [hkey x (List.mem_range.mp hx), hfs]
          refine Eq.trans ?_ (List.map_congr_left hsome).symm
          exact readChunk_eq_map d bo tr
      rw [ih (sz' + 1 - tr) (offset + tr) fs (by omega) hok', hsplit, List.map_append,
        List.map_map, ← hrest, ← hchunk]

lemma read_loop_eq_map {flen : Nat} (hf : flen ≤ 900) (fuel sz offset : Nat) (fs : FS)
    (hsz : sz ≤ fuel) :
    read_loop flen fuel fs sz offset
      = some ((List.range sz).map fun j => readByte fs (offset + j)) :=
  read_loop_eq_map_ok fuel sz offset fs hsz fun j _ => pathOk_short hf _

lemma block_read_eq {flen : Nat} (hf : flen ≤ 900) (fs : FS) (size offset : Int)
    (hs : 0 ≤ size) (ho : 0 ≤ offset) :
    block_read (some ⟨flen⟩) size offset fs
      = (size, (List.range size.toNat).map fun j => readByte fs (offset.toNat + j)) := by
  simp only [block_read]
  rw [if_neg (show ¬(size < 0 ∨ offset < 0) by omega),
    read_loop_eq_map hf _ _ _ _ le_rfl]

lemma block_read_eq_ok {flen : Nat} (fs : FS) (size offset : Int)
    (hs : 0 ≤ size) (ho : 0 ≤ offset)
    (hok : ∀ j, j < size.toNat →
      pathOkKey flen (keyOf ((offset.toNat + j) / BLOCK_SIZE)) = true) :
    block_read (some ⟨flen⟩) size offset fs
      = (size, (List.range size.toNat).map fun j => readByte fs (offset.toNat + j)) := by
  simp only [block_read]
  rw [if_neg (show ¬(size < 0 ∨ offset < 0) by omega),
    read_loop_eq_map_ok _ _ _ _ le_rfl hok]

/-! ### Writes: effect on the pointwise logical content -/

lemma getD_drop (l : List α) (n m : Nat) (a : α) :
    (l.drop n).getD m a = l.getD (n + m) a := by
  simp [List.getD_eq_getElem?_getD, List.getElem?_drop]

lemma getD_take_lt (l : List α) {n m : Nat} (h : m < n) (a : α) :
    (l.take n).getD m a = l.getD m a := by
  simp [List.getD_eq_getElem?_getD, List.getElem?_take_of_lt h]

lemma overlay_getD (data chunk : List Nat) (bo tw q : Nat)
    (hd : data.length = BLOCK_SIZE) (hc : chunk.length = tw)
    (hbtw : bo + tw ≤ BLOCK_SIZE) (hq : q < BLOCK_SIZE) :
    (data.take bo ++ chunk ++ data.drop (bo + tw)).getD q 0
      = if bo ≤ q ∧ q < bo + tw then chunk.getD (q - bo) 0 else data.getD q 0 := by
  have hbo : bo ≤ BLOCK_SIZE := by omega
  have hlt : (data.take bo).length = bo := by
    rw [List.length_take]; omega
  rw [List.getD_eq_getElem?_getD, List.getElem?_append, List.getElem?_append,
    List.length_append, hlt, hc]
  rcases Nat.lt_or_ge q bo with h1 | h1
  · rw [if_pos (by omega), if_pos (by omega), List.getElem?_take_of_lt h1,
      if_neg (by omega), ← List.getD_eq_getElem?_getD]
  · rcases Nat.lt_or_ge q (bo + tw) with h2 | h2
    · rw [if_pos (by omega), if_neg (by omega), if_pos (by omega)]
      rw [← List.getD_eq_getElem?_getD]
    · rw [if_neg (by omega), if_neg (by omega), List.getElem?_drop]
      rw [show bo + tw + (q - (bo + tw)) = q by omega, ← List.getD_eq_getElem?_getD]

lemma readByte_fsSet_self (fs : FS) (bn : Nat) (v : List Nat) (p : Nat)
    (hk : keyOf (p / BLOCK_SIZE) = bn) :
    readByte (fsSet fs bn v) p = v.getD (p % BLOCK_SIZE) 0 := by
  unfold readByte fsSet
  rw [hk, if_pos rfl]

lemma readByte_fsSet_other (fs : FS) (bn : Nat) (v : List Nat) (p : Nat)
    (hk : keyOf (p / BLOCK_SIZE) ≠ bn) :
    readByte (fsSet fs bn v) p = readByte fs p := by
  unfold readByte fsSet
  rw [if_neg hk]

/-- Effect of one iteration of the write loop on the logical content. -/
lemma readByte_step (fs : FS) (bn bo tw : Nat) (chunk : List Nat)
    (hbo : bo < BLOCK_SIZE) (hbtw : bo + tw ≤ BLOCK_SIZE)
    (htw1 : 1 ≤ tw) (hlen : chunk.length = tw) (p : Nat) :
    readByte (if bo ≠ 0 ∨ tw ≠ BLOCK_SIZE then
        fsSet fs bn ((blockOr (fs bn)).take bo ++ chunk ++ (blockOr (fs bn)).drop (bo + tw))
      else fsSet fs bn chunk) p
      = if keyOf (p / BLOCK_SIZE) = bn ∧ bo ≤ p % BLOCK_SIZE ∧ p % BLOCK_SIZE < bo + tw
        then chunk.getD (p % BLOCK_SIZE - bo) 0
        else readByte fs p := by
  have hq : p % BLOCK_SIZE < BLOCK_SIZE := bo_lt p
  by_cases hk : keyOf (p / BLOCK_SIZE) = bn
  · by_cases hfull : bo ≠ 0 ∨ tw ≠ BLOCK_SIZE
    · rw [if_pos hfull, readByte_fsSet_self fs bn _ p hk,
        overlay_getD _ chunk bo tw _ (blockOr_length (fs bn)) hlen hbtw hq]
      by_cases hin : bo ≤ p % BLOCK_SIZE ∧ p % BLOCK_SIZE < bo + tw
      · rw [if_pos hin, if_pos ⟨hk, hin⟩]
      · rw [if_neg hin, if_neg (by tauto), blockOr_getD (fs bn) _ hq]
        unfold readByte
        rw [hk]
    · rw [if_neg hfull]
      push_neg at hfull
      obtain ⟨h0, hB⟩ := hfull
      rw [readByte_fsSet_self fs bn _ p hk, if_pos ⟨hk, by omega⟩, h0, Nat.sub_zero]
  · have : ¬(keyOf (p / BLOCK_SIZE) = bn ∧ bo ≤ p % BLOCK_SIZE ∧ p % BLOCK_SIZE < bo + tw) := by
      tauto
    rw [if_neg this]
    by_cases hfull : bo ≠ 0 ∨ tw ≠ BLOCK_SIZE
    · rw [if_pos hfull, readByte_fsSet_other fs bn _ p hk]
    · rw [if_neg hfull, readByte_fsSet_other fs bn _ p hk]

/-- Master specification of a completed run of the write loop: every
position aliasing a written byte (same block key and in-block offset, i.e.
equality mod `2^44 = 2^32 * BLOCK_SIZE`) reads back that byte, and every
other position is unchanged. -/
lemma write_loop_spec {flen : Nat} :
    ∀ fuel (buf : List Nat) (fs : FS) (offset : Nat),
      buf.length ≤ fuel → buf.length < 2 ^ 31 →
      (write_loop flen fuel fs buf offset).1 = true →
      (∀ j, j < buf.length → ∀ p, p % 2 ^ 44 = (offset + j) % 2 ^ 44 →
        readByte (write_loop flen fuel fs buf offset).2 p = buf.getD j 0) ∧
      (∀ p, (∀ j, j < buf.length → p % 2 ^ 44 ≠ (offset + j) % 2 ^ 44) →
        readByte (write_loop flen fuel fs buf offset).2 p = readByte fs p) := by
  intro fuel
  induction fuel with
  | zero =>
    intro buf fs offset hle hlt hsucc
    match buf with
    | [] =>
      refine ⟨?_, fun p _ => rfl⟩
      intro j hj
      simp at hj
    | x :: xs => simp at hle
  | succ fuel ih =>
    intro buf fs offset hle hlt hsucc
    match buf with
    | [] =>
      refine ⟨?_, fun p _ => rfl⟩
      intro j hj
      simp at hj
    | b :: rest =>
      have hbo : offset % BLOCK_SIZE < BLOCK_SIZE := bo_lt offset
      have hBpos : (0 : Nat) < BLOCK_SIZE := by simp [BLOCK_SIZE]
      set bn := keyOf (offset / BLOCK_SIZE) with hbn
      set bo := offset % BLOCK_SIZE with hbo'
      set tw := min (b :: rest).length (BLOCK_SIZE - bo) with htw
      have hlen : (b :: rest).length = rest.length + 1 := by simp
      have htw1 : 1 ≤ tw := by
        rw [htw]; simp only [hlen]; omega
      have htwle : tw ≤ (b :: rest).length := Nat.min_le_left _ _
      have hbtw : bo + tw ≤ BLOCK_SIZE := by
        have := Nat.min_le_right (b :: rest).length (BLOCK_SIZE - bo)
        omega
      have hchlen : ((b :: rest).take tw).length = tw := by
        rw [List.length_take]; omega
      have hdroplen : ((b :: rest).drop tw).length = (b :: rest).length - tw := by
        rw [List.length_drop]
      cases hok : pathOkKey flen bn with
      | false =>
        exfalso
        simp only [write_loop, ← hbn, ← hbo', ← htw, hok] at hsucc
        simp at hsucc
      | true =>
      simp only [write_loop, ← hbn, ← hbo', ← htw, hok, if_true] at hsucc ⊢
      obtain ⟨ihW1, ihW2⟩ :=
        ih ((b :: rest).drop tw)
          (if bo ≠ 0 ∨ tw ≠ BLOCK_SIZE then
            fsSet fs bn ((blockOr (fs bn)).take bo ++ (b :: rest).take tw
              ++ (blockOr (fs bn)).drop (bo + tw))
          else fsSet fs bn ((b :: rest).take tw))
          (offset + tw) (by omega) (by omega) hsucc
      refine ⟨?_, ?_⟩
      · intro j hj p hp
        rcases Nat.lt_or_ge j tw with hjtw | hjtw
        · have hnoalias : ∀ j', j' < ((b :: rest).drop tw).length →
              p % 2 ^ 44 ≠ (offset + tw + j') % 2 ^ 44 := by
            intro j' hj' heq
            rw [hdroplen] at hj'
            omega
          rw [ihW2 p hnoalias]
          have hsb := sameBlock offset j (by omega)
          have hkeyj : keyOf ((offset + j) / BLOCK_SIZE) = bn := by
            rw [hsb.1, hbn]
          have halias := alias_key_mod hp
          have hmod : p % BLOCK_SIZE = bo + j := by
            rw [halias.2, hsb.2, hbo']
          rw [readByte_step fs bn bo tw _ hbo hbtw htw1 hchlen p,
            if_pos ⟨by rw [halias.1, hkeyj], by omega, by omega⟩, hmod,
            Nat.add_sub_cancel_left, getD_take_lt _ hjtw]
        · have hj' : j - tw < ((b :: rest).drop tw).length := by
            rw [hdroplen]; omega
          have hp' : p % 2 ^ 44 = (offset + tw + (j - tw)) % 2 ^ 44 := by
            rw [show offset + tw + (j - tw) = offset + j by omega]; exact hp
          rw [ihW1 (j - tw) hj' p hp', getD_drop,
            show tw + (j - tw) = j by omega]
      · intro p hall
        have hnoalias : ∀ j', j' < ((b :: rest).drop tw).length →
            p % 2 ^ 44 ≠ (offset + tw + j') % 2 ^ 44 := by
          intro j' hj' heq
          rw [hdroplen] at hj'
          exact hall (tw + j') (by omega)
            (by rw [show offset + (tw + j') = offset + tw + j' by omega]; exact heq)
        rw [ihW2 p hnoalias, readByte_step fs bn bo tw _ hbo hbtw htw1 hchlen p, if_neg]
        rintro ⟨hk, h1, h2⟩
        set j := p % BLOCK_SIZE - bo with hj
        have hjtw : j < tw := by omega
        have hsb := sameBlock offset j (by omega)
        have hkeyj : keyOf ((offset + j) / BLOCK_SIZE) = bn := by
          rw [hsb.1, hbn]
        refine hall j (by omega) (alias_of_key ?_ ?_)
        · rw [hk, hkeyj]
        · rw [hsb.2, ← hbo']; omega

/-- With a short file name every path composition succeeds, so the write
loop always completes. -/
lemma write_loop_ok_short {flen : Nat} (hf : flen ≤ 900) :
    ∀ fuel (buf : List Nat) (fs : FS) (offset : Nat), buf.length ≤ fuel →
      (write_loop flen fuel fs buf offset).1 = true := by
  intro fuel
  induction fuel with
  | zero =>
    intro buf fs offset hle
    match buf with
    | [] => rfl
    | x :: xs => simp at hle
  | succ fuel ih =>
    intro buf fs offset hle
    match buf with
    | [] => rfl
    | b :: rest =>
      have hbo := bo_lt offset
      simp only [write_loop, pathOk_short hf, if_true]
      apply ih
      simp only [List.length_drop, List.length_cons] at *
      omega

/-- A completed write loop validated the path of every block it touched. -/
lemma write_loop_keys_ok {flen : Nat} :
    ∀ fuel (buf : List Nat) (fs : FS) (offset : Nat),
      (write_loop flen fuel fs buf offset).1 = true →
      ∀ j, j < buf.length → pathOkKey flen (keyOf ((offset + j) / BLOCK_SIZE)) = true := by
  intro fuel
  induction fuel with
  | zero =>
    intro buf fs offset hsucc j hj
    match buf with
    | [] => simp at hj
    | b :: rest => simp [write_loop] at hsucc
  | succ fuel ih =>
    intro buf fs offset hsucc j hj
    match buf with
    | [] => simp at hj
    | b :: rest =>
      have hbo := bo_lt offset
      set bn := keyOf (offset / BLOCK_SIZE) with hbn
      set bo := offset % BLOCK_SIZE with hbo'
      set tw := min (b :: rest).length (BLOCK_SIZE - bo) with htw
      have htw1 : 1 ≤ tw := by
        rw [htw]; simp only [List.length_cons]; omega
      have hbtw : bo + tw ≤ BLOCK_SIZE := by
        have := Nat.min_le_right (b :: rest).length (BLOCK_SIZE - bo)
        omega
      cases hok : pathOkKey flen bn with
      | false =>
        exfalso
        simp only [write_loop, ← hbn, ← hbo', ← htw, hok] at hsucc
        simp at hsucc
      | true =>
        rcases Nat.lt_or_ge j tw with hj1 | hj1
        · have hsb := sameBlock offset j (by omega)
          rw [hsb.1, ← hbn]
          exact hok
        · simp only [write_loop, ← hbn, ← hbo', ← htw, hok, if_true] at hsucc
          have h := ih _ _ _ hsucc (j - tw)
            (by simp only [List.length_drop, List.length_cons] at *; omega)
          rwa [show offset + tw + (j - tw) = offset + j by omega] at h

/-- A successful `block_write` (return value = size) means the loop ran to
completion, and identifies the resulting state. -/
lemma block_write_succ {flen : Nat} (fs : FS) (buf : List Nat) (offset : Int)
    (ho : 0 ≤ offset) (r : Int) (fs' : FS)
    (hw : block_write (some ⟨flen⟩) buf (buf.length : Int) offset fs = (r, fs'))
    (hr : r = (buf.length : Int)) :
    (write_loop flen buf.length fs buf offset.toNat).1 = true ∧
    fs' = (write_loop flen buf.length fs buf offset.toNat).2 := by
  simp only [block_write] at hw
  rw [if_neg (show ¬((buf.length : Int) < 0 ∨ offset < 0) by
      push_neg
      exact ⟨Int.natCast_nonneg _, ho⟩),
    Int.toNat_natCast, List.take_length] at hw
  obtain ⟨hw1, hw2⟩ := Prod.ext_iff.mp hw
  cases hb : (write_loop flen buf.length fs buf offset.toNat).1 with
  | false =>
    exfalso
    rw [hb] at hw1
    simp only [Bool.false_eq_true, if_false] at hw1
    rw [← hw1] at hr
    omega
  | true => exact ⟨rfl, hw2.symm⟩

/-- C1: Round-trip — for every buffer `b` of length `size ≥ 0` (a C `int`,
so below `2^31`) and every offset `≥ 0`, if `block_write(bf, b, size,
offset)` succeeds (returns `size`) then a subsequent `block_read(bf, out,
size, offset)` succeeds (returns `size`) and fills `out` with exactly the
bytes of `b`. -/
theorem C1_write_read_roundtrip (flen : Nat) (fs : FS) (buf : List Nat)
    (hlen : buf.length < 2 ^ 31) (offset : Int) (ho : 0 ≤ offset) (r : Int) (fs' : FS)
    (hw : block_write (some ⟨flen⟩) buf (buf.length : Int) offset fs = (r, fs'))
    (hr : r = (buf.length : Int)) :
    block_read (some ⟨flen⟩) (buf.length : Int) offset fs' = ((buf.length : Int), buf) := by
  obtain ⟨hok, hfs'⟩ := block_write_succ fs buf offset ho r fs' hw hr
  obtain ⟨hW1, -⟩ := write_loop_spec buf.length buf fs offset.toNat le_rfl hlen hok
  have hkeys := write_loop_keys_ok buf.length buf fs offset.toNat hok
  rw [block_read_eq_ok fs' _ _ (Int.natCast_nonneg _) ho (fun j hj => by
    rw [Int.toNat_natCast] at hj
    exact hkeys j hj)]
  rw [Prod.mk.injEq]
  refine ⟨rfl, ?_⟩
  rw [Int.toNat_natCast]
  refine Eq.trans (List.map_congr_left ?_) (map_getD_range buf buf.length 0 rfl)
  intro x hx
  rw [hfs']
  exact hW1 x (List.mem_range.mp hx) (offset.toNat + x) rfl

set_option maxRecDepth 80000 in
/-- Witness for C1 at a concrete input: 3 bytes written across the block 0 /
block 1 boundary read back exactly. -/
theorem C1_witness :
    block_read (some ⟨5⟩) (([7, 8, 9] : List Nat).length : Int) 4095
      (block_write (some ⟨5⟩) [7, 8, 9] (([7, 8, 9] : List Nat).length : Int) 4095 emptyFS).2
      = ((([7, 8, 9] : List Nat).length : Int), [7, 8, 9]) :=
  C1_write_read_roundtrip 5 emptyFS [7, 8, 9] (by decide) 4095 (by decide)
    (block_write (some ⟨5⟩) [7, 8, 9] (([7, 8, 9] : List Nat).length : Int) 4095 emptyFS).1
    (block_write (some ⟨5⟩) [7, 8, 9] (([7, 8, 9] : List Nat).length : Int) 4095 emptyFS).2
    rfl (by decide)

/-! ### The bounded size scan computes a maximum of block contributions -/

lemma size_loop_spec {flen : Nat} (fs : FS) :
    ∀ fuel bn acc, (∀ j, j < fuel → pathOkKey flen (bn + j) = true) →
      ∃ m, size_loop flen fs fuel bn acc = some m ∧ acc ≤ m ∧
        (∀ j d, j < fuel → fs (bn + j) = some d → contrib (bn + j) d ≤ m) ∧
        (m = acc ∨ ∃ j d, j < fuel ∧ fs (bn + j) = some d ∧ m = contrib (bn + j) d) := by
  intro fuel
  induction fuel with
  | zero =>
    intro bn acc hok
    refine ⟨acc, rfl, le_rfl, ?_, Or.inl rfl⟩
    intro j d hj
    omega
  | succ fuel ih =>
    intro bn acc hok
    have hok0 : pathOkKey flen bn = true := by
      have h := hok 0 (by omega); rwa [Nat.add_zero] at h
    have hok' : ∀ j, j < fuel → pathOkKey flen (bn + 1 + j) = true := by
      intro j hj
      have h := hok (1 + j) (by omega)
      rwa [← Nat.add_assoc] at h
    cases hfs : fs bn with
    | none =>
      obtain ⟨m, hm, hacc, hub, hdisj⟩ := ih (bn + 1) acc hok'
      refine ⟨m, ?_, hacc, ?_, ?_⟩
      · simp only [size_loop, hok0, if_true, hfs]
        exact hm
      · intro j d hj hfsj
        match j with
        | 0 =>
          rw [Nat.add_zero] at hfsj
          rw [hfsj] at hfs
          cases hfs
        | j + 1 =>
          have h := hub j d (by omega)
            (by rwa [show bn + 1 + j = bn + (j + 1) by omega])
          rwa [show bn + 1 + j = bn + (j + 1) by omega] at h
      · rcases hdisj with h | ⟨j, d, hj, h1, h2⟩
        · exact Or.inl h
        · exact Or.inr ⟨j + 1, d, by omega,
            by rwa [show bn + (j + 1) = bn + 1 + j by omega],
            by rwa [show bn + (j + 1) = bn + 1 + j by omega]⟩
    | some d =>
      obtain ⟨m, hm, hacc, hub, hdisj⟩ := ih (bn + 1) (max acc (contrib bn d)) hok'
      refine ⟨m, ?_, le_trans (le_max_left _ _) hacc, ?_, ?_⟩
      · simp only [size_loop, hok0, if_true, hfs]
        exact hm
      · intro j d' hj hfsj
        match j with
        | 0 =>
          rw [Nat.add_zero] at hfsj
          rw [hfsj] at hfs
          cases hfs
          rw [Nat.add_zero]
          exact le_trans (le_max_right acc _) hacc
        | j + 1 =>
          have h := hub j d' (by omega)
            (by rwa [show bn + 1 + j = bn + (j + 1) by omega])
          rwa [show bn + 1 + j = bn + (j + 1) by omega] at h
      · rcases hdisj with h | ⟨j, d', hj, h1, h2⟩
        · rcases le_total acc (contrib bn d) with hle | hle
          · rw [max_eq_right hle] at h
            exact Or.inr ⟨0, d, by omega, by rwa [Nat.add_zero], by rwa [Nat.add_zero]⟩
          · rw [max_eq_left hle] at h
            exact Or.inl h
        · exact Or.inr ⟨j + 1, d', by omega,
            by rwa [show bn + (j + 1) = bn + 1 + j by omega],
            by rwa [show bn + (j + 1) = bn + 1 + j by omega]⟩

/-- Evaluation of `block_file_size` on a short file name: it returns the maximum of the
contributions of the present blocks with key below 10000 (zero if none). -/
lemma block_file_size_spec {flen : Nat} (hf : flen ≤ 900) (fs : FS) :
    ∃ m : Nat, block_file_size (some ⟨flen⟩) fs = (m : Int) ∧
      (∀ k d, k < 10000 → fs k = some d → contrib k d ≤ m) ∧
      (m = 0 ∨ ∃ k d, k < 10000 ∧ fs k = some d ∧ m = contrib k d) := by
  obtain ⟨m, hm, hacc, hub, hdisj⟩ :=
    size_loop_spec fs 10000 0 0 (fun j _ => pathOk_short hf _)
  refine ⟨m, ?_, ?_, ?_⟩
  · simp only [block_file_size, hm]
  · intro k d hk hfsk
    have h := hub k d hk (by rwa [Nat.zero_add])
    rwa [Nat.zero_add] at h
  · rcases hdisj with h | ⟨j, d, hj, h1, h2⟩
    · exact Or.inl h
    · exact Or.inr ⟨j, d, hj, by rwa [Nat.zero_add] at h1, by rwa [Nat.zero_add] at h2⟩

/-- C2: Read contract — on a valid handle (file name short enough for the
path compositions) with `size ≥ 0`, `offset ≥ 0`, `block_read` fills
exactly `size` bytes and returns `size`; the byte filled for position `p`
is 0 when the block file is absent, and the stored byte (0 past the file's
physical length) when present; on a freshly opened virtual file every read
returns all-zero bytes and `block_file_size` returns 0. -/
theorem C2_read_contract (flen : Nat) (hf : flen ≤ 900) (fs : FS) (size offset : Int)
    (hs : 0 ≤ size) (ho : 0 ≤ offset) :
    block_read (some ⟨flen⟩) size offset fs
      = (size, (List.range size.toNat).map fun j => readByte fs (offset.toNat + j)) ∧
    ((block_read (some ⟨flen⟩) size offset fs).2).length = size.toNat ∧
    (∀ p, fs (keyOf (p / BLOCK_SIZE)) = none → readByte fs p = 0) ∧
    (∀ p d, fs (keyOf (p / BLOCK_SIZE)) = some d →
      readByte fs p = d.getD (p % BLOCK_SIZE) 0) ∧
    block_read (some ⟨flen⟩) size offset emptyFS = (size, List.replicate size.toNat 0) ∧
    block_file_size (some ⟨flen⟩) emptyFS = 0 := by
  refine ⟨block_read_eq hf fs size offset hs ho, ?_, ?_, ?_, ?_, ?_⟩
  · rw [block_read_eq hf fs size offset hs ho]
    simp
  · intro p hp
    unfold readByte
    rw [hp]
  · intro p d hp
    unfold readByte
    rw [hp]
  · rw [block_read_eq hf emptyFS size offset hs ho, Prod.mk.injEq]
    refine ⟨rfl, ?_⟩
    have hz : ∀ x ∈ List.range size.toNat,
        (fun j => readByte emptyFS (offset.toNat + j)) x = (fun _ : Nat => (0 : Nat)) x :=
      fun x _ => rfl
    rw [List.map_congr_left hz, map_zero_range]
  · obtain ⟨m, hm, hub, hdisj⟩ := block_file_size_spec hf emptyFS
    rcases hdisj with h0 | ⟨k, d, hk, habs, -⟩
    · rw [hm, h0]
      rfl
    · cases habs

/-- Witness for C2: reading 2 bytes at offset 0 from a state whose block 0
holds the single byte 42 returns count 2 and the byte followed by a zero. -/
theorem C2_witness :
    block_read (some ⟨5⟩) 2 0 (fun k => if k = 0 then some [42] else none)
      = (2, [42, 0]) := by
  have h := (C2_read_contract 5 (by decide) (fun k => if k = 0 then some [42] else none)
    2 0 (by decide) (by decide)).1
  rw [h]
  decide

/-- C3: the size scan is bounded at block index 10000 — a state whose only
block file sits at index 10000 (5 bytes) has logical size
`10000 * 4096 + 5`, but `block_file_size` never stats it and returns 0. -/
theorem C3_size_bound_demo :
    block_file_size (some ⟨5⟩) (fun k => if k = 10000 then some [1, 1, 1, 1, 1] else none)
      = 0 ∧ (10000 * 4096 + 5 : Int) ≠ 0 := by
  constructor
  · obtain ⟨m, hm, hub, hdisj⟩ :=
      block_file_size_spec (show (5 : Nat) ≤ 900 by omega)
        (fun k => if k = 10000 then some [1, 1, 1, 1, 1] else none)
    rcases hdisj with h0 | ⟨k, d, hk, habs, -⟩
    · rw [hm, h0]
      rfl
    · rw [if_neg (by omega)] at habs
      cases habs
  · decide

/-! ### Block length invariant (C9) -/

lemma write_loop_blocks {flen : Nat} :
    ∀ fuel (buf : List Nat) (fs : FS) (offset : Nat) (k : Nat),
      ((write_loop flen fuel fs buf offset).2) k = fs k ∨
      ∃ d, ((write_loop flen fuel fs buf offset).2) k = some d ∧ d.length = BLOCK_SIZE := by
  intro fuel
  induction fuel with
  | zero =>
    intro buf fs offset k
    match buf with
    | [] => exact Or.inl rfl
    | b :: rest => exact Or.inl rfl
  | succ fuel ih =>
    intro buf fs offset k
    match buf with
    | [] => exact Or.inl rfl
    | b :: rest =>
      have hbo : offset % BLOCK_SIZE < BLOCK_SIZE := bo_lt offset
      set bn := keyOf (offset / BLOCK_SIZE) with hbn
      set bo := offset % BLOCK_SIZE with hbo'
      set tw := min (b :: rest).length (BLOCK_SIZE - bo) with htw
      have htwle : tw ≤ (b :: rest).length := Nat.min_le_left _ _
      have hbtw : bo + tw ≤ BLOCK_SIZE := by
        have := Nat.min_le_right (b :: rest).length (BLOCK_SIZE - bo)
        omega
      have hchlen : ((b :: rest).take tw).length = tw := by
        rw [List.length_take]; omega
      cases hok : pathOkKey flen bn with
      | false =>
        simp only [write_loop, ← hbn, ← hbo', ← htw, hok]
        exact Or.inl rfl
      | true =>
        simp only [write_loop, ← hbn, ← hbo', ← htw, hok, if_true]
        by_cases hc : bo ≠ 0 ∨ tw ≠ BLOCK_SIZE
        · rw [if_pos hc]
          rcases ih ((b :: rest).drop tw)
            (fsSet fs bn ((blockOr (fs bn)).take bo ++ (b :: rest).take tw
              ++ (blockOr (fs bn)).drop (bo + tw)))
            (offset + tw) k with h | h
          · by_cases hk : k = bn
            · refine Or.inr ⟨(blockOr (fs bn)).take bo ++ (b :: rest).take tw
                ++ (blockOr (fs bn)).drop (bo + tw), ?_, ?_⟩
              · rw [h]
                simp [fsSet, hk]
              · have hd := blockOr_length (fs bn)
                simp only [List.length_append, List.length_take, List.length_drop, hchlen, hd]
                omega
            · left
              rw [h]
              simp [fsSet, hk]
          · exact Or.inr h
        · rw [if_neg hc]
          rcases ih ((b :: rest).drop tw)
            (fsSet fs bn ((b :: rest).take tw)) (offset + tw) k with h | h
          · by_cases hk : k = bn
            · refine Or.inr ⟨(b :: rest).take tw, ?_, ?_⟩
              · rw [h]
                simp [fsSet, hk]
              · push_neg at hc
                rw [hchlen, hc.2]
            · left
              rw [h]
              simp [fsSet, hk]
          · exact Or.inr h

lemma trunc_loop_subset {flen : Nat} (locked : Nat → Bool) :
    ∀ fuel (bn : Int) (fs : FS) (k : Nat),
      ((trunc_loop flen locked fuel bn fs).2) k = fs k ∨
      ((trunc_loop flen locked fuel bn fs).2) k = none := by
  intro fuel
  induction fuel with
  | zero => intro bn fs k; exact Or.inl rfl
  | succ fuel ih =>
    intro bn fs k
    cases hok : pathOkKey flen ((bn % (2 ^ 32 : Int)).toNat) with
    | false =>
      simp only [trunc_loop, hok]
      exact Or.inl rfl
    | true =>
      simp only [trunc_loop, hok, if_true]
      cases hfs : fs ((bn % (2 ^ 32 : Int)).toNat) with
      | none => exact ih (bn + 1) fs k
      | some d =>
        cases hl : locked ((bn % (2 ^ 32 : Int)).toNat) with
        | true => exact Or.inl rfl
        | false =>
          simp only [Bool.false_eq_true, if_false]
          rcases ih (bn + 1) (fsDel fs ((bn % (2 ^ 32 : Int)).toNat)) k with h | h
          · by_cases hk : k = (bn % (2 ^ 32 : Int)).toNat
            · right
              rw [h]
              simp [fsDel, hk]
            · left
              rw [h]
              exact if_neg hk
          · exact Or.inr h

lemma block_write_blocks (bf : Option BF) (buf : List Nat) (size offset : Int)
    (fs : FS) (k : Nat) :
    ((block_write bf buf size offset fs).2) k = fs k ∨
    ∃ d, ((block_write bf buf size offset fs).2) k = some d ∧ d.length = BLOCK_SIZE := by
  match bf with
  | none => exact Or.inl rfl
  | some h =>
    simp only [block_write]
    by_cases harg : size < 0 ∨ offset < 0
    · rw [if_pos harg]
      exact Or.inl rfl
    · rw [if_neg harg]
      exact write_loop_blocks _ _ _ _ k

lemma block_truncate_blocks (bf : Option BF) (size : Int) (fs : FS)
    (locked : Nat → Bool) (k : Nat) :
    ((block_truncate bf size fs locked).2) k = fs k ∨
    ((block_truncate bf size fs locked).2) k = none ∨
    ∃ d, ((block_truncate bf size fs locked).2) k = some d ∧ d.length < BLOCK_SIZE := by
  match bf with
  | none => exact Or.inl rfl
  | some h =>
    simp only [block_truncate]
    by_cases harg : size < 0
    · rw [if_pos harg]
      exact Or.inl rfl
    · rw [if_neg harg]
      have hsub := @trunc_loop_subset h.flen locked
        ((10000 - wrapI ((size.toNat + BLOCK_SIZE - 1) / BLOCK_SIZE)).toNat)
        (wrapI ((size.toNat + BLOCK_SIZE - 1) / BLOCK_SIZE)) fs
      set fs1 := (trunc_loop h.flen locked
        ((10000 - wrapI ((size.toNat + BLOCK_SIZE - 1) / BLOCK_SIZE)).toNat)
        (wrapI ((size.toNat + BLOCK_SIZE - 1) / BLOCK_SIZE)) fs).2 with hfs1
      set kB := keyOf ((size.toNat - 1) / BLOCK_SIZE) with hkB
      cases hr1 : (trunc_loop h.flen locked
          ((10000 - wrapI ((size.toNat + BLOCK_SIZE - 1) / BLOCK_SIZE)).toNat)
          (wrapI ((size.toNat + BLOCK_SIZE - 1) / BLOCK_SIZE)) fs).1 with
      | false =>
        simp only [hr1, Bool.false_eq_true, if_false]
        rcases hsub k with h1 | h1
        · exact Or.inl h1
        · exact Or.inr (Or.inl h1)
      | true =>
        simp only [hr1, if_true]
        by_cases hcond : 0 < size.toNat ∧ size.toNat % BLOCK_SIZE ≠ 0
        · rw [if_pos hcond]
          by_cases hpath : pathOkKey h.flen kB
          · rw [if_pos hpath]
            by_cases hk : k = kB
            · refine Or.inr (Or.inr
                ⟨(blockOr (fs1 kB)).take (size.toNat % BLOCK_SIZE), ?_, ?_⟩)
              · show fsSet fs1 kB ((blockOr (fs1 kB)).take (size.toNat % BLOCK_SIZE)) k = _
                simp [fsSet, hk]
              · rw [List.length_take, blockOr_length (fs1 kB)]
                have : size.toNat % BLOCK_SIZE < BLOCK_SIZE := bo_lt size.toNat
                omega
            · have hstep : fsSet fs1 kB
                  ((blockOr (fs1 kB)).take (size.toNat % BLOCK_SIZE)) k = fs1 k := if_neg hk
              show fsSet fs1 kB ((blockOr (fs1 kB)).take (size.toNat % BLOCK_SIZE)) k = fs k
                ∨ fsSet fs1 kB ((blockOr (fs1 kB)).take (size.toNat % BLOCK_SIZE)) k = none
                ∨ ∃ d, fsSet fs1 kB
                    ((blockOr (fs1 kB)).take (size.toNat % BLOCK_SIZE)) k = some d
                  ∧ d.length < BLOCK_SIZE
              rw [hstep]
              rcases hsub k with h1 | h1
              · exact Or.inl h1
              · exact Or.inr (Or.inl h1)
          · rw [if_neg hpath]
            rcases hsub k with h1 | h1
            · exact Or.inl h1
            · exact Or.inr (Or.inl h1)
        · rw [if_neg hcond]
          rcases hsub k with h1 | h1
          · exact Or.inl h1
          · exact Or.inr (Or.inl h1)

/-- C9: Invariant — in every on-disk state reachable from the empty state
through the engine's operations, every present block file has physical
length in `[0, BLOCK_SIZE]`. -/
theorem C9_block_length_invariant (fs : FS) (h : Reach fs) : BlocksInv fs := by
  induction h with
  | empty => intro k d hk; cases hk
  | write fs0 bf buf size offset r fs' hre hw ih =>
    intro k d hk
    have heq : fs' = (block_write bf buf size offset fs0).2 := by rw [hw]
    rcases block_write_blocks bf buf size offset fs0 k with h1 | ⟨d', h1, h2⟩
    · exact ih k d (by rw [← h1, ← heq]; exact hk)
    · rw [heq] at hk
      rw [hk] at h1
      cases h1
      omega
  | trunc fs0 bf size locked r fs' hre hw ih =>
    intro k d hk
    have heq : fs' = (block_truncate bf size fs0 locked).2 := by rw [hw]
    rcases block_truncate_blocks bf size fs0 locked k with h1 | h1 | ⟨d', h1, h2⟩
    · exact ih k d (by rw [← h1, ← heq]; exact hk)
    · rw [heq, h1] at hk
      cases hk
    · rw [heq] at hk
      rw [hk] at h1
      cases h1
      omega

/-- Witness for C9: the state produced by one concrete write is reachable
and satisfies the invariant. -/
theorem C9_witness : BlocksInv (block_write (some ⟨5⟩) [1, 2, 3] 3 0 emptyFS).2 :=
  C9_block_length_invariant _
    (Reach.write emptyFS (some ⟨5⟩) [1, 2, 3] 3 0 _ _ Reach.empty rfl)

/-- C5 counterexample: the claim says a null handle passed to `block_close`
fails with `InvalidArgument` (-1), but `block_close(NULL)` returns 0
(success). -/
theorem C5_close_null_counterexample : block_close none = 0 ∧ (0 : Int) ≠ -1 :=
  ⟨rfl, by decide⟩

/-- C5 amended: a null handle passed to `block_read`, `block_write`,
`block_truncate` or `block_file_size` fails with -1, and a negative size or
offset passed to `block_read`/`block_write` (negative size for
`block_truncate`) fails with -1, all before any filesystem access, leaving
the state unchanged; `block_close(NULL)`, however, returns 0 (success). -/
theorem C5_invalid_arguments (fs : FS) (buf : List Nat) (size offset : Int)
    (locked : Nat → Bool) (h : BF) :
    block_read none size offset fs = (-1, []) ∧
    block_write none buf size offset fs = (-1, fs) ∧
    block_truncate none size fs locked = (-1, fs) ∧
    block_file_size none fs = -1 ∧
    block_close none = 0 ∧
    (size < 0 ∨ offset < 0 → block_read (some h) size offset fs = (-1, [])) ∧
    (size < 0 ∨ offset < 0 → block_write (some h) buf size offset fs = (-1, fs)) ∧
    (size < 0 → block_truncate (some h) size fs locked = (-1, fs)) := by
  refine ⟨rfl, rfl, rfl, rfl, rfl, ?_, ?_, ?_⟩
  · intro hneg
    simp only [block_read]
    rw [if_pos hneg]
  · intro hneg
    simp only [block_write]
    rw [if_pos hneg]
  · intro hneg
    simp only [block_truncate]
    rw [if_pos hneg]

/-- Witness for C5 amended: negative arguments on a concrete handle. -/
theorem C5_witness :
    block_read (some ⟨5⟩) (-3) 7 emptyFS = (-1, []) ∧
    block_truncate (some ⟨5⟩) (-1) emptyFS (fun _ => false) = (-1, emptyFS) :=
  ⟨(C5_invalid_arguments emptyFS [] (-3) 7 (fun _ => false) ⟨5⟩).2.2.2.2.2.1
      (Or.inl (by decide)),
   (C5_invalid_arguments emptyFS [] (-1) 0 (fun _ => false) ⟨5⟩).2.2.2.2.2.2.2
      (by decide)⟩

set_option maxRecDepth 60000 in
lemma hello_write_ret : (block_write (some ⟨5⟩) hello13 13 0 emptyFS).1 = 13 := by
  decide

set_option maxRecDepth 60000 in
lemma hello_write_fs : (block_write (some ⟨5⟩) hello13 13 0 emptyFS).2
    = fsSet emptyFS 0 (hello13 ++ List.replicate 4083 0) := rfl

set_option maxRecDepth 60000 in
lemma hello_read13 :
    block_read (some ⟨5⟩) 13 0 (block_write (some ⟨5⟩) hello13 13 0 emptyFS).2
      = (13, hello13) := by
  decide

set_option maxRecDepth 60000 in
lemma hello_read50 :
    block_read (some ⟨5⟩) 50 0 (block_write (some ⟨5⟩) hello13 13 0 emptyFS).2
      = (50, hello13 ++ List.replicate 37 0) := by
  decide

lemma hello_size :
    block_file_size (some ⟨5⟩) (block_write (some ⟨5⟩) hello13 13 0 emptyFS).2 = 4096 := by
  rw [hello_write_fs]
  obtain ⟨m, hm, hub, hdisj⟩ := block_file_size_spec (show (5 : Nat) ≤ 900 by omega)
    (fsSet emptyFS 0 (hello13 ++ List.replicate 4083 0))
  have hlen : (hello13 ++ List.replicate 4083 0).length = 4096 := by
    rw [List.length_append, List.length_replicate]
    rfl
  have hpres : (fsSet emptyFS 0 (hello13 ++ List.replicate 4083 0)) 0
      = some (hello13 ++ List.replicate 4083 0) := if_pos rfl
  have hc : contrib 0 (hello13 ++ List.replicate 4083 0) = 4096 := by
    unfold contrib
    rw [hlen]
    simp [BLOCK_SIZE]
  have hm4096 : 4096 ≤ m := by
    have h := hub 0 _ (by omega) hpres
    omega
  rcases hdisj with h0 | ⟨k', d', hk', hp', hmm⟩
  · omega
  · by_cases hk0 : k' = 0
    · subst hk0
      rw [hpres] at hp'
      have hd' : d' = hello13 ++ List.replicate 4083 0 := (Option.some.inj hp').symm
      have hm' : m = 4096 := by
        rw [hmm, hd', hc]
      rw [hm, hm']
      decide
    · exfalso
      have hnone : (fsSet emptyFS 0 (hello13 ++ List.replicate 4083 0)) k' = none := by
        simp [fsSet, hk0, emptyFS]
      rw [hnone] at hp'
      cases hp'

/-- C6: every block file changed by a `block_write` ends with physical
length exactly `BLOCK_SIZE` (partial sub-writes never leave or preserve a
short block file); concretely, after writing the 13 bytes of
`"Hello, World!"` at offset 0 on a fresh virtual file, the write returns
13, `block_file_size` reports 4096, reading 13 bytes returns the string and
reading 50 bytes returns it followed by 37 zero bytes. -/
theorem C6_partial_write_rewrites_full (bf : Option BF) (buf : List Nat)
    (size offset : Int) (fs : FS) (k : Nat)
    (hchanged : ((block_write bf buf size offset fs).2) k ≠ fs k) :
    (∃ d, ((block_write bf buf size offset fs).2) k = some d ∧ d.length = BLOCK_SIZE) ∧
    (block_write (some ⟨5⟩) hello13 13 0 emptyFS).1 = 13 ∧
    block_file_size (some ⟨5⟩) (block_write (some ⟨5⟩) hello13 13 0 emptyFS).2 = 4096 ∧
    block_read (some ⟨5⟩) 13 0 (block_write (some ⟨5⟩) hello13 13 0 emptyFS).2
      = (13, hello13) ∧
    block_read (some ⟨5⟩) 50 0 (block_write (some ⟨5⟩) hello13 13 0 emptyFS).2
      = (50, hello13 ++ List.replicate 37 0) := by
  refine ⟨?_, hello_write_ret, hello_size, hello_read13, hello_read50⟩
  rcases block_write_blocks bf buf size offset fs k with h1 | h1
  · exact absurd h1 hchanged
  · exact h1

set_option maxRecDepth 60000 in
/-- Witness for C6: a 1-byte write at offset 5 on a fresh file leaves block
0 with physical length 4096. -/
theorem C6_witness :
    ∃ d, ((block_write (some ⟨5⟩) [9] 1 5 emptyFS).2) 0 = some d
      ∧ d.length = BLOCK_SIZE :=
  (C6_partial_write_rewrites_full (some ⟨5⟩) [9] 1 5 emptyFS 0 (by decide)).1

/-! ### Truncate: the deletion scan and the boundary rewrite -/

lemma keyInt_eq (bn : Nat) (h : bn < 2 ^ 32) :
    (((bn : Int)) % (2 ^ 32 : Int)).toNat = bn := by
  omega

/-- A run of the deletion scan over `[bn, bn+fuel)` in which no present
block is locked: it completes, deletes exactly the present blocks of that
range of keys, and leaves every other key untouched. -/
lemma trunc_loop_clean {flen : Nat} (hf : flen ≤ 900) (locked : Nat → Bool) :
    ∀ fuel (bn : Nat) (fs : FS), bn + fuel ≤ 2 ^ 32 →
      (∀ i d, bn ≤ i → i < bn + fuel → fs i = some d → locked i = false) →
      (trunc_loop flen locked fuel (bn : Int) fs).1 = true ∧
      (∀ k, bn ≤ k → k < bn + fuel →
        ((trunc_loop flen locked fuel (bn : Int) fs).2) k = none) ∧
      (∀ k, k < bn ∨ bn + fuel ≤ k →
        ((trunc_loop flen locked fuel (bn : Int) fs).2) k = fs k) := by
  intro fuel
  induction fuel with
  | zero =>
    intro bn fs hle hcl
    refine ⟨rfl, ?_, fun k _ => rfl⟩
    intro k h1 h2
    omega
  | succ fuel ih =>
    intro bn fs hle hcl
    have hkey : (((bn : Int)) % (2 ^ 32 : Int)).toNat = bn := keyInt_eq bn (by omega)
    have hcast : ((bn : Int) + 1) = (((bn + 1 : Nat)) : Int) := by push_cast; ring
    simp only [trunc_loop, hkey, pathOk_short hf bn, if_true, hcast]
    cases hfs : fs bn with
    | none =>
      obtain ⟨hok, hdel, hkeep⟩ := ih (bn + 1) fs (by omega)
        (fun i d h1 h2 hp => hcl i d (by omega) (by omega) hp)
      refine ⟨hok, ?_, ?_⟩
      · intro k h1 h2
        rcases Nat.eq_or_lt_of_le h1 with h | h
        · rw [hkeep k (Or.inl (by omega)), ← h]
          exact hfs
        · exact hdel k (by omega) (by omega)
      · intro k hk
        exact hkeep k (by omega)
    | some d =>
      rw [hcl bn d (by omega) (by omega) hfs]
      simp only [Bool.false_eq_true, if_false]
      obtain ⟨hok, hdel, hkeep⟩ := ih (bn + 1) (fsDel fs bn) (by omega)
        (fun i d' h1 h2 hp => hcl i d' (by omega) (by omega)
          (by rwa [fsDel, if_neg (by omega : ¬i = bn)] at hp))
      refine ⟨hok, ?_, ?_⟩
      · intro k h1 h2
        rcases Nat.eq_or_lt_of_le h1 with h | h
        · rw [hkeep k (Or.inl (by omega)), ← h]
          exact if_pos rfl
        · exact hdel k (by omega) (by omega)
      · intro k hk
        rw [hkeep k (by omega)]
        exact if_neg (by omega : ¬k = bn)

/-- Behaviour of `block_truncate` on a short file name with `n ≤ 10000 * BLOCK_SIZE` and
no locked present block in the scanned range: returns 0, deletes every
present block with key in `[ceil(n/BLOCK_SIZE), 10000)`, leaves keys
`≥ 10000` untouched, leaves the blocks below the cut untouched, and when
`n` is not block-aligned rewrites the boundary block `(n-1)/BLOCK_SIZE` to
the first `n % BLOCK_SIZE` bytes of its zero-padded existing content. -/
lemma block_truncate_spec {flen : Nat} (hf : flen ≤ 900) (fs : FS) (locked : Nat → Bool)
    (n : Nat) (hn : n ≤ 10000 * BLOCK_SIZE)
    (hclean : ∀ i d, (n + BLOCK_SIZE - 1) / BLOCK_SIZE ≤ i → i < 10000 →
      fs i = some d → locked i = false) :
    (block_truncate (some ⟨flen⟩) (n : Int) fs locked).1 = 0 ∧
    (∀ k, (n + BLOCK_SIZE - 1) / BLOCK_SIZE ≤ k → k < 10000 →
      ((block_truncate (some ⟨flen⟩) (n : Int) fs locked).2) k = none) ∧
    (∀ k, 10000 ≤ k →
      ((block_truncate (some ⟨flen⟩) (n : Int) fs locked).2) k = fs k) ∧
    (n % BLOCK_SIZE = 0 → ∀ k, k < (n + BLOCK_SIZE - 1) / BLOCK_SIZE →
      ((block_truncate (some ⟨flen⟩) (n : Int) fs locked).2) k = fs k) ∧
    (n % BLOCK_SIZE ≠ 0 →
      ((block_truncate (some ⟨flen⟩) (n : Int) fs locked).2) ((n - 1) / BLOCK_SIZE)
        = some ((blockOr (fs ((n - 1) / BLOCK_SIZE))).take (n % BLOCK_SIZE)) ∧
      (∀ k, k < (n + BLOCK_SIZE - 1) / BLOCK_SIZE → k ≠ (n - 1) / BLOCK_SIZE →
        ((block_truncate (some ⟨flen⟩) (n : Int) fs locked).2) k = fs k)) := by
  have hB : (0 : Nat) < BLOCK_SIZE := by simp [BLOCK_SIZE]
  set L := (n + BLOCK_SIZE - 1) / BLOCK_SIZE with hL
  have hL10000 : L ≤ 10000 := by
    rw [hL]
    simp only [BLOCK_SIZE] at hn ⊢
    omega
  have hwrapI : wrapI L = ((L : Nat) : Int) := by
    unfold wrapI
    rw [Nat.mod_eq_of_lt (by omega)]
    rw [if_pos (by omega)]
  have hfuel : (((10000 : Int)) - ((L : Nat) : Int)).toNat = 10000 - L := by omega
  obtain ⟨hok, hdel, hkeep⟩ := trunc_loop_clean hf locked (10000 - L) L fs (by omega)
    (fun i d h1 h2 hp => hclean i d (by omega) (by omega) hp)
  have hred0 : block_truncate (some ⟨flen⟩) (n : Int) fs locked
      = (if 0 < n ∧ n % BLOCK_SIZE ≠ 0 then
          (if pathOkKey flen (keyOf ((n - 1) / BLOCK_SIZE)) then
            (0, fsSet ((trunc_loop flen locked (10000 - L) ((L : Nat) : Int) fs).2)
              (keyOf ((n - 1) / BLOCK_SIZE))
              ((blockOr (((trunc_loop flen locked (10000 - L) ((L : Nat) : Int) fs).2)
                (keyOf ((n - 1) / BLOCK_SIZE)))).take (n % BLOCK_SIZE)))
          else (0, (trunc_loop flen locked (10000 - L) ((L : Nat) : Int) fs).2))
        else (0, (trunc_loop flen locked (10000 - L) ((L : Nat) : Int) fs).2)) := by
    simp only [block_truncate]
    rw [if_neg (show ¬(n : Int) < 0 by omega)]
    simp only [Int.toNat_natCast, ← hL, hwrapI, hfuel, hok, if_true]
  have hkB : keyOf ((n - 1) / BLOCK_SIZE) = (n - 1) / BLOCK_SIZE := by
    unfold keyOf
    simp only [BLOCK_SIZE] at hn ⊢
    omega
  by_cases hal : n % BLOCK_SIZE = 0
  · have hred : block_truncate (some ⟨flen⟩) (n : Int) fs locked
        = (0, (trunc_loop flen locked (10000 - L) ((L : Nat) : Int) fs).2) := by
      rw [hred0, if_neg (by tauto)]
    refine ⟨by rw [hred], ?_, ?_, ?_, fun hm => absurd hal hm⟩
    · intro k h1 h2
      rw [hred]
      exact hdel k h1 (by omega)
    · intro k hk
      rw [hred]
      exact hkeep k (Or.inr (by omega))
    · intro _ k hk
      rw [hred]
      exact hkeep k (Or.inl hk)
  · have h0n : 0 < n := by
      rcases Nat.eq_zero_or_pos n with h | h
      · exfalso
        rw [h] at hal
        exact hal (Nat.zero_mod _)
      · exact h
    have hred : block_truncate (some ⟨flen⟩) (n : Int) fs locked
        = (0, fsSet ((trunc_loop flen locked (10000 - L) ((L : Nat) : Int) fs).2)
            ((n - 1) / BLOCK_SIZE)
            ((blockOr (((trunc_loop flen locked (10000 - L) ((L : Nat) : Int) fs).2)
              ((n - 1) / BLOCK_SIZE))).take (n % BLOCK_SIZE))) := by
      rw [hred0, if_pos ⟨h0n, hal⟩, hkB, if_pos (pathOk_short hf _)]
    have hBL : (n - 1) / BLOCK_SIZE < L := by
      rw [hL]
      simp only [BLOCK_SIZE] at hal h0n ⊢
      omega
    have hfs1B : ((trunc_loop flen locked (10000 - L) ((L : Nat) : Int) fs).2)
        ((n - 1) / BLOCK_SIZE) = fs ((n - 1) / BLOCK_SIZE) :=
      hkeep _ (Or.inl hBL)
    refine ⟨by rw [hred], ?_, ?_, fun hm => absurd hm hal, fun _ => ⟨?_, ?_⟩⟩
    · intro k h1 h2
      rw [hred]
      show fsSet _ _ _ k = none
      rw [fsSet, if_neg (by omega : ¬k = (n - 1) / BLOCK_SIZE)]
      exact hdel k h1 (by omega)
    · intro k hk
      rw [hred]
      show fsSet _ _ _ k = fs k
      rw [fsSet, if_neg (by omega : ¬k = (n - 1) / BLOCK_SIZE)]
      exact hkeep k (Or.inr (by omega))
    · rw [hred]
      show fsSet _ _ _ _ = _
      rw [fsSet, if_pos rfl, hfs1B]
    · intro k hk hkB'
      rw [hred]
      show fsSet _ _ _ k = fs k
      rw [fsSet, if_neg hkB']
      exact hkeep k (Or.inl hk)

/-- C10: `block_truncate` to a non-block-aligned `n` (within the scanned
index range) writes the boundary block even when it did not previously
exist, so truncate can grow the logical size: from any state whose logical
size is below `n`, after a successful truncate `block_file_size` returns
exactly `n`. -/
theorem C10_truncate_grows (flen : Nat) (hf : flen ≤ 900) (fs : FS) (locked : Nat → Bool)
    (n : Nat) (hmis : n % BLOCK_SIZE ≠ 0) (hn : n < 10000 * BLOCK_SIZE)
    (hsize : ∀ k d, fs k = some d → k * BLOCK_SIZE + min d.length BLOCK_SIZE < n) :
    (block_truncate (some ⟨flen⟩) (n : Int) fs locked).1 = 0 ∧
    block_file_size (some ⟨flen⟩)
      ((block_truncate (some ⟨flen⟩) (n : Int) fs locked).2) = (n : Int) := by
  have hB : (0 : Nat) < BLOCK_SIZE := by simp [BLOCK_SIZE]
  have h0n : 0 < n := by
    rcases Nat.eq_zero_or_pos n with h | h
    · exfalso
      rw [h] at hmis
      exact hmis (Nat.zero_mod _)
    · exact h
  have hclean : ∀ i d, (n + BLOCK_SIZE - 1) / BLOCK_SIZE ≤ i → i < 10000 →
      fs i = some d → locked i = false := by
    intro i d h1 h2 hp
    exfalso
    have hc := hsize i d hp
    have : n ≤ (n + BLOCK_SIZE - 1) / BLOCK_SIZE * BLOCK_SIZE := by
      simp only [BLOCK_SIZE] at *
      omega
    have : (n + BLOCK_SIZE - 1) / BLOCK_SIZE * BLOCK_SIZE ≤ i * BLOCK_SIZE :=
      Nat.mul_le_mul_right _ h1
    omega
  obtain ⟨hr, hdel, hhigh, -, hbound⟩ :=
    block_truncate_spec hf fs locked n (le_of_lt hn) hclean
  obtain ⟨hfsB, hkeeplow⟩ := hbound hmis
  refine ⟨hr, ?_⟩
  have hBlt : (n - 1) / BLOCK_SIZE < (n + BLOCK_SIZE - 1) / BLOCK_SIZE := by
    simp only [BLOCK_SIZE] at *
    omega
  have hB10000 : (n - 1) / BLOCK_SIZE < 10000 := by
    simp only [BLOCK_SIZE] at *
    omega
  have hvlen : ((blockOr (fs ((n - 1) / BLOCK_SIZE))).take (n % BLOCK_SIZE)).length
      = n % BLOCK_SIZE := by
    rw [List.length_take, blockOr_length]
    have := bo_lt n
    omega
  have hcB : contrib ((n - 1) / BLOCK_SIZE)
      ((blockOr (fs ((n - 1) / BLOCK_SIZE))).take (n % BLOCK_SIZE)) = n := by
    unfold contrib
    rw [hvlen, if_pos (bo_lt n)]
    simp only [BLOCK_SIZE] at *
    omega
  obtain ⟨m, hm, hub, hdisj⟩ := block_file_size_spec hf
    ((block_truncate (some ⟨flen⟩) (n : Int) fs locked).2)
  have hnm : n ≤ m := by
    have h := hub ((n - 1) / BLOCK_SIZE) _ hB10000 hfsB
    omega
  have hmn : m = n := by
    rcases hdisj with h0 | ⟨k, d, hk, hp, hmm⟩
    · omega
    · by_cases hkB : k = (n - 1) / BLOCK_SIZE
      · subst hkB
        rw [hfsB] at hp
        rw [hmm, ← Option.some.inj hp, hcB]
      · rcases Nat.lt_or_ge k ((n + BLOCK_SIZE - 1) / BLOCK_SIZE) with hkL | hkL
        · rw [hkeeplow k hkL hkB] at hp
          have hc := hsize k d hp
          have : contrib k d ≤ k * BLOCK_SIZE + min d.length BLOCK_SIZE := by
            unfold contrib
            split_ifs with hdl
            · omega
            · simp only [BLOCK_SIZE] at *
              omega
          omega
        · rw [hdel k hkL hk] at hp
          cases hp
  rw [hm, hmn]

/-- Witness for C10: truncating a fresh virtual file to 13 bytes succeeds
and makes `block_file_size` report 13. -/
theorem C10_witness :
    (block_truncate (some ⟨5⟩) ((13 : Nat) : Int) emptyFS (fun _ => false)).1 = 0 ∧
    block_file_size (some ⟨5⟩)
      ((block_truncate (some ⟨5⟩) ((13 : Nat) : Int) emptyFS (fun _ => false)).2)
      = ((13 : Nat) : Int) :=
  C10_truncate_grows 5 (by omega) emptyFS (fun _ => false) 13 (by decide) (by decide)
    (fun k d h => nomatch h)

/-- The deletion scan never reports an error on a short file name: a failing
`unlink` (not-`ENOENT`) only `break`s out of the loop. -/
lemma trunc_loop_ok {flen : Nat} (hf : flen ≤ 900) (locked : Nat → Bool) :
    ∀ fuel (bn : Nat) (fs : FS), bn + fuel ≤ 2 ^ 32 →
      (trunc_loop flen locked fuel (bn : Int) fs).1 = true := by
  intro fuel
  induction fuel with
  | zero => intro bn fs hle; rfl
  | succ fuel ih =>
    intro bn fs hle
    have hkey : (((bn : Int)) % (2 ^ 32 : Int)).toNat = bn := keyInt_eq bn (by omega)
    have hcast : ((bn : Int) + 1) = (((bn + 1 : Nat)) : Int) := by push_cast; ring
    simp only [trunc_loop, hkey, pathOk_short hf bn, if_true, hcast]
    cases hfs : fs bn with
    | none => exact ih (bn + 1) fs (by omega)
    | some d =>
      cases hl : locked bn with
      | true => rfl
      | false =>
        simp only [Bool.false_eq_true, if_false]
        exact ih (bn + 1) (fsDel fs bn) (by omega)

/-- Return value of `block_truncate`: 0 (success) for every `n ≤ 10000 * BLOCK_SIZE`
on a short file name — also when a deletion fails for a reason other than
absence. -/
lemma block_truncate_ret0 {flen : Nat} (hf : flen ≤ 900) (fs : FS) (locked : Nat → Bool)
    (n : Nat) (hn : n ≤ 10000 * BLOCK_SIZE) :
    (block_truncate (some ⟨flen⟩) (n : Int) fs locked).1 = 0 := by
  set L := (n + BLOCK_SIZE - 1) / BLOCK_SIZE with hL
  have hL10000 : L ≤ 10000 := by
    rw [hL]
    simp only [BLOCK_SIZE] at hn ⊢
    omega
  have hwrapI : wrapI L = ((L : Nat) : Int) := by
    unfold wrapI
    rw [Nat.mod_eq_of_lt (by omega)]
    rw [if_pos (by omega)]
  have hfuel : (((10000 : Int)) - ((L : Nat) : Int)).toNat = 10000 - L := by omega
  have hok := trunc_loop_ok hf locked (10000 - L) L fs (by omega)
  simp only [block_truncate]
  rw [if_neg (show ¬(n : Int) < 0 by omega)]
  simp only [Int.toNat_natCast, ← hL, hwrapI, hfuel, hok, if_true]
  by_cases h1 : 0 < n ∧ n % BLOCK_SIZE ≠ 0
  · rw [if_pos h1]
    by_cases h2 : pathOkKey flen (keyOf ((n - 1) / BLOCK_SIZE))
    · rw [if_pos h2]
    · rw [if_neg h2]
  · rw [if_neg h1]

/-- C4 counterexample: state with block files at indices 2 (whose deletion
fails for a reason other than absence), 3 and 10000.  `block_truncate(bf,0)`
— which by the claim should delete every block and abort with an error at
the failed deletion — returns 0 (success) and leaves blocks 3 and 10000 in
place. -/
theorem C4_counterexample :
    (block_truncate (some ⟨5⟩) 0
      (fun k => if k = 2 then some [1] else if k = 3 then some [2]
        else if k = 10000 then some [3] else none)
      (fun k => decide (k = 2))).1 = 0 ∧
    ((block_truncate (some ⟨5⟩) 0
      (fun k => if k = 2 then some [1] else if k = 3 then some [2]
        else if k = 10000 then some [3] else none)
      (fun k => decide (k = 2))).2) 3 = some [2] ∧
    ((block_truncate (some ⟨5⟩) 0
      (fun k => if k = 2 then some [1] else if k = 3 then some [2]
        else if k = 10000 then some [3] else none)
      (fun k => decide (k = 2))).2) 10000 = some [3] ∧
    (0 : Int) ≠ -1 := by
  decide

/-- C4 amended: `block_truncate(bf, newSize)` with `0 ≤ newSize ≤
10000*BLOCK_SIZE` on a valid handle always returns success (0) — a deletion
failure whose cause is not absence silently stops the scan rather than
aborting with an error; when no such failure occurs in the scanned range,
it deletes every present block file with index in
`[ceil(newSize/BLOCK_SIZE), 10000)` (indices ≥ 10000 are never scanned),
leaves other blocks untouched, and if `newSize` is not block-aligned
rewrites the boundary block `(newSize-1)/BLOCK_SIZE` so its physical length
is `newSize % BLOCK_SIZE`, preserving its first bytes; `newSize == 0`
deletes all blocks below 10000 and performs no boundary rewrite. -/
theorem C4_truncate_behavior (flen : Nat) (hf : flen ≤ 900) (fs : FS)
    (locked : Nat → Bool) (n : Nat) (hn : n ≤ 10000 * BLOCK_SIZE) :
    (block_truncate (some ⟨flen⟩) (n : Int) fs locked).1 = 0 ∧
    ((∀ i d, (n + BLOCK_SIZE - 1) / BLOCK_SIZE ≤ i → i < 10000 →
        fs i = some d → locked i = false) →
      (∀ k, (n + BLOCK_SIZE - 1) / BLOCK_SIZE ≤ k → k < 10000 →
        ((block_truncate (some ⟨flen⟩) (n : Int) fs locked).2) k = none) ∧
      (∀ k, 10000 ≤ k →
        ((block_truncate (some ⟨flen⟩) (n : Int) fs locked).2) k = fs k) ∧
      (n % BLOCK_SIZE = 0 → ∀ k, k < (n + BLOCK_SIZE - 1) / BLOCK_SIZE →
        ((block_truncate (some ⟨flen⟩) (n : Int) fs locked).2) k = fs k) ∧
      (n % BLOCK_SIZE ≠ 0 →
        ((block_truncate (some ⟨flen⟩) (n : Int) fs locked).2) ((n - 1) / BLOCK_SIZE)
          = some ((blockOr (fs ((n - 1) / BLOCK_SIZE))).take (n % BLOCK_SIZE)) ∧
        (∀ k, k < (n + BLOCK_SIZE - 1) / BLOCK_SIZE → k ≠ (n - 1) / BLOCK_SIZE →
          ((block_truncate (some ⟨flen⟩) (n : Int) fs locked).2) k = fs k))) := by
  refine ⟨block_truncate_ret0 hf fs locked n hn, fun hclean => ?_⟩
  obtain ⟨-, a, b, c, d⟩ := block_truncate_spec hf fs locked n hn hclean
  exact ⟨a, b, c, d⟩

/-- Witness for C4 amended: truncating a fresh file to 0 returns success. -/
theorem C4_witness :
    (block_truncate (some ⟨5⟩) ((0 : Nat) : Int) emptyFS (fun _ => false)).1 = 0 :=
  (C4_truncate_behavior 5 (by omega) emptyFS (fun _ => false) 0 (by decide)).1

/-! ### C7: frame property of write -/

set_option maxRecDepth 60000 in
lemma alias_write_first :
    (block_write (some ⟨5⟩) [98] 1 17592186044416
      (block_write (some ⟨5⟩) [97] 1 0 emptyFS).2).1 = 1 := by
  decide

set_option maxRecDepth 60000 in
lemma alias_read_before :
    block_read (some ⟨5⟩) 1 0 (block_write (some ⟨5⟩) [97] 1 0 emptyFS).2 = (1, [97]) := by
  decide

set_option maxRecDepth 60000 in
lemma alias_read_after :
    block_read (some ⟨5⟩) 1 0 (block_write (some ⟨5⟩) [98] 1 17592186044416
      (block_write (some ⟨5⟩) [97] 1 0 emptyFS).2).2 = (1, [98]) := by
  decide

/-- C7 counterexample: the narrowing `int block_num = offset / BLOCK_SIZE`
makes offset `2^44` alias block 0 (`2^44 / 4096 = 2^32 ≡ 0 mod 2^32`).
After writing byte 97 at offset 0, a successful 1-byte write of 98 at
offset `2^44` changes the byte read at offset 0 — a position far outside
`[2^44, 2^44 + 1)` — from 97 to 98. -/
theorem C7_counterexample :
    (block_write (some ⟨5⟩) [98] 1 17592186044416
      (block_write (some ⟨5⟩) [97] 1 0 emptyFS).2).1 = 1 ∧
    block_read (some ⟨5⟩) 1 0 (block_write (some ⟨5⟩) [97] 1 0 emptyFS).2 = (1, [97]) ∧
    block_read (some ⟨5⟩) 1 0 (block_write (some ⟨5⟩) [98] 1 17592186044416
      (block_write (some ⟨5⟩) [97] 1 0 emptyFS).2).2 = (1, [98]) ∧
    ¬((17592186044416 : Int) ≤ 0 ∧ (0 : Int) < 17592186044416 + 1) :=
  ⟨alias_write_first, alias_read_before, alias_read_after, by decide⟩

set_option maxRecDepth 60000 in
lemma neighbor_write100 :
    (block_write (some ⟨5⟩) [1, 2, 3, 4] 4 100 emptyFS).1 = 4 := by
  decide

set_option maxRecDepth 60000 in
lemma neighbor_write200 :
    (block_write (some ⟨5⟩) [5, 6, 7, 8] 4 200
      (block_write (some ⟨5⟩) [1, 2, 3, 4] 4 100 emptyFS).2).1 = 4 := by
  decide

set_option maxRecDepth 60000 in
lemma neighbor_read104 :
    block_read (some ⟨5⟩) 5 104 (block_write (some ⟨5⟩) [5, 6, 7, 8] 4 200
      (block_write (some ⟨5⟩) [1, 2, 3, 4] 4 100 emptyFS).2).2
      = (5, [0, 0, 0, 0, 0]) := by
  decide

/-- A 1-byte read at position `p`: the byte `readByte` describes, or -1 when
the path composition fails. -/
lemma block_read_one (flen : Nat) (g : FS) (p : Nat) :
    block_read (some ⟨flen⟩) 1 (p : Int) g
      = if pathOkKey flen (keyOf (p / BLOCK_SIZE)) then (1, [readByte g p]) else (-1, []) := by
  simp only [block_read]
  rw [if_neg (show ¬((1 : Int) < 0 ∨ (p : Int) < 0) by omega)]
  have ht : (1 : Int).toNat = 1 := rfl
  have hp' : ((p : Int)).toNat = p := Int.toNat_natCast p
  rw [ht, hp']
  cases hpath : pathOkKey flen (keyOf (p / BLOCK_SIZE)) with
  | true =>
    rw [read_loop_eq_map_ok 1 1 p g le_rfl (fun j hj => by
      have hj0 : j = 0 := by omega
      subst hj0
      rwa [Nat.add_zero]), if_pos rfl]
    have : (List.range 1).map (fun j => readByte g (p + j)) = [readByte g p] := by
      rw [show List.range 1 = [0] from rfl, List.map_cons, List.map_nil, Nat.add_zero]
    rw [this]
  | false =>
    rw [show (1 : Nat) = 0 + 1 from rfl]
    simp only [read_loop, hpath, Bool.false_eq_true, if_false]

/-- C7 amended: within the offset range where the block index fits an `int`
(offsets below `2^44 = 2^32 * BLOCK_SIZE`), a successful
`block_write(bf, b, size, offset)` changes the virtual file's content only
on `[offset, offset + size)`: a 1-byte read at any other position `p <
2^44` returns the same as before the write.  Concretely, writing 4 bytes at
offset 100 and 4 bytes at offset 200 of the same block and then reading 5
bytes at offset 104 returns all zero. -/
theorem C7_frame (flen : Nat) (fs : FS) (buf : List Nat)
    (hlen : buf.length < 2 ^ 31) (offset : Int) (ho : 0 ≤ offset) (r : Int) (fs' : FS)
    (hw : block_write (some ⟨flen⟩) buf (buf.length : Int) offset fs = (r, fs'))
    (hr : r = (buf.length : Int))
    (hrange : offset.toNat + buf.length ≤ 2 ^ 44)
    (p : Nat) (hp : p < 2 ^ 44)
    (hout : p < offset.toNat ∨ offset.toNat + buf.length ≤ p) :
    (block_read (some ⟨flen⟩) 1 (p : Int) fs' = block_read (some ⟨flen⟩) 1 (p : Int) fs) ∧
    block_read (some ⟨5⟩) 5 104 (block_write (some ⟨5⟩) [5, 6, 7, 8] 4 200
      (block_write (some ⟨5⟩) [1, 2, 3, 4] 4 100 emptyFS).2).2 = (5, [0, 0, 0, 0, 0]) := by
  refine ⟨?_, neighbor_read104⟩
  obtain ⟨hok, hfs'⟩ := block_write_succ fs buf offset ho r fs' hw hr
  obtain ⟨-, hW2⟩ := write_loop_spec buf.length buf fs offset.toNat le_rfl hlen hok
  have hnoalias : ∀ j, j < buf.length → p % 2 ^ 44 ≠ (offset.toNat + j) % 2 ^ 44 := by
    intro j hj
    rw [Nat.mod_eq_of_lt hp, Nat.mod_eq_of_lt (by omega)]
    omega
  have hrb : readByte fs' p = readByte fs p := by
    rw [hfs']
    exact hW2 p hnoalias
  rw [block_read_one flen fs' p, block_read_one flen fs p, hrb]

set_option maxRecDepth 60000 in
/-- Witness for C7 amended: after writing one byte at offset 0, reading the
byte at position 1 is unchanged. -/
theorem C7_witness :
    block_read (some ⟨5⟩) 1 ((1 : Nat) : Int)
      (block_write (some ⟨5⟩) [7] (([7] : List Nat).length : Int) 0 emptyFS).2
      = block_read (some ⟨5⟩) 1 ((1 : Nat) : Int) emptyFS :=
  (C7_frame 5 emptyFS [7] (by decide) 0 (by decide)
    (block_write (some ⟨5⟩) [7] (([7] : List Nat).length : Int) 0 emptyFS).1
    (block_write (some ⟨5⟩) [7] (([7] : List Nat).length : Int) 0 emptyFS).2
    rfl (by decide) (by decide) 1 (by decide) (Or.inr (by decide))).1

/-! ### C8: path length handling -/

/-- With a file name of length ≥ 1017 the directory path is truncated to
`MAX_PATH_LEN - 1` characters and every block-file path composition
overflows, so every `get_block_path` call fails. -/
lemma pathBad_long {flen : Nat} (h : 1017 ≤ flen) (k : Nat) :
    pathOkKey flen k = false := by
  unfold pathOkKey
  simp only [decide_eq_false_iff_not, not_lt]
  have h1 : get_block_dir flen = 1023 := by
    unfold get_block_dir MAX_PATH_LEN
    omega
  have h2 : 6 ≤ fieldLenKey k := by
    unfold fieldLenKey
    split_ifs <;> omega
  unfold MAX_PATH_LEN
  omega

lemma read_loop_bad {flen : Nat} (h : 1017 ≤ flen) (fuel sz offset : Nat) (fs : FS)
    (h1 : 0 < sz) (h2 : 0 < fuel) : read_loop flen fuel fs sz offset = none := by
  cases fuel with
  | zero => omega
  | succ f =>
    cases sz with
    | zero => omega
    | succ s =>
      simp only [read_loop, pathBad_long h, Bool.false_eq_true, if_false]

lemma write_loop_bad {flen : Nat} (h : 1017 ≤ flen) (fuel : Nat) (fs : FS)
    (b : Nat) (rest : List Nat) (offset : Nat) (h2 : 0 < fuel) :
    write_loop flen fuel fs (b :: rest) offset = (false, fs) := by
  cases fuel with
  | zero => omega
  | succ f =>
    simp only [write_loop, pathBad_long h, Bool.false_eq_true, if_false]

lemma size_loop_bad {flen : Nat} (h : 1017 ≤ flen) (fs : FS) (fuel bn acc : Nat)
    (h2 : 0 < fuel) : size_loop flen fs fuel bn acc = none := by
  cases fuel with
  | zero => omega
  | succ f =>
    simp only [size_loop, pathBad_long h, Bool.false_eq_true, if_false]

lemma trunc_loop_bad {flen : Nat} (h : 1017 ≤ flen) (locked : Nat → Bool)
    (fuel : Nat) (bn : Int) (fs : FS) (h2 : 0 < fuel) :
    trunc_loop flen locked fuel bn fs = (false, fs) := by
  cases fuel with
  | zero => omega
  | succ f =>
    simp only [trunc_loop, pathBad_long h, Bool.false_eq_true, if_false]

/-- C8 counterexample: `block_open` on a file name of 1020 characters
composes a block-directory path whose untruncated length (1027) exceeds the
storable maximum (`MAX_PATH_LEN - 1 = 1023`), yet it does not fail: it
returns success and `mkdir`s the silently truncated 1023-character path. -/
theorem C8_counterexample :
    block_open 1020 = (0, ⟨1020⟩, 1023) ∧
    MAX_PATH_LEN - 1 < 1020 + 7 ∧ (1023 : Nat) ≠ 1020 + 7 :=
  ⟨rfl, by decide, by decide⟩

/-- C8 amended: when the composed block-file path overflows `MAX_PATH_LEN`
(file name length ≥ 1017), `block_read` (with `size > 0`), `block_write`
(with a nonempty span), `block_file_size`, and `block_truncate`'s deletion
scan (when it has an iteration to run, i.e. `n ≤ 9999 * BLOCK_SIZE`) all
fail with -1 before touching any block file; but `block_open` composes the
block-directory path with no length check — succeeding on a silently
truncated path — and `block_truncate`'s boundary rewrite ignores the
`get_block_path` failure: for `9999 * BLOCK_SIZE < n ≤ 10000 * BLOCK_SIZE`
not block-aligned, the scan is empty and truncate returns success (0)
despite the over-long path. -/
theorem C8_path_too_long (flen : Nat) (hlong : 1017 ≤ flen) (fs : FS)
    (size offset : Int) (buf : List Nat) (locked : Nat → Bool) (n : Nat) :
    (0 < size → 0 ≤ offset → block_read (some ⟨flen⟩) size offset fs = (-1, [])) ∧
    (0 < size → 0 ≤ offset → size.toNat ≤ buf.length →
      block_write (some ⟨flen⟩) buf size offset fs = (-1, fs)) ∧
    block_file_size (some ⟨flen⟩) fs = -1 ∧
    (n ≤ 9999 * BLOCK_SIZE →
      block_truncate (some ⟨flen⟩) (n : Int) fs locked = (-1, fs)) ∧
    (9999 * BLOCK_SIZE < n → n ≤ 10000 * BLOCK_SIZE → n % BLOCK_SIZE ≠ 0 →
      block_truncate (some ⟨flen⟩) (n : Int) fs locked = (0, fs)) ∧
    (block_open flen).1 = 0 ∧ (block_open flen).2.2 = MAX_PATH_LEN - 1 ∧
    MAX_PATH_LEN - 1 < flen + 7 := by
  refine ⟨?_, ?_, ?_, ?_, ?_, rfl, ?_, ?_⟩
  · intro hs ho
    simp only [block_read]
    rw [if_neg (by omega),
      read_loop_bad hlong size.toNat size.toNat offset.toNat fs (by omega) (by omega)]
  · intro hs ho hble
    simp only [block_write]
    rw [if_neg (by omega)]
    have hlen : (buf.take size.toNat).length = size.toNat := by
      rw [List.length_take]
      omega
    cases htake : buf.take size.toNat with
    | nil =>
      rw [htake] at hlen
      simp at hlen
      omega
    | cons b rest =>
      rw [write_loop_bad hlong size.toNat fs b rest offset.toNat (by omega)]
      rfl
  · simp only [block_file_size]
    rw [size_loop_bad hlong fs 10000 0 0 (by omega)]
  · intro hle
    set L := (n + BLOCK_SIZE - 1) / BLOCK_SIZE with hL
    have hL9999 : L ≤ 9999 := by
      rw [hL]
      simp only [BLOCK_SIZE] at hle ⊢
      omega
    have hwrapI : wrapI L = ((L : Nat) : Int) := by
      unfold wrapI
      rw [Nat.mod_eq_of_lt (by omega)]
      rw [if_pos (by omega)]
    have hfuel : (((10000 : Int)) - ((L : Nat) : Int)).toNat = 10000 - L := by omega
    simp only [block_truncate]
    rw [if_neg (show ¬(n : Int) < 0 by omega)]
    simp only [Int.toNat_natCast, ← hL, hwrapI, hfuel,
      trunc_loop_bad hlong locked (10000 - L) ((L : Nat) : Int) fs (by omega),
      Bool.false_eq_true, if_false]
  · intro hgt hle hmis
    set L := (n + BLOCK_SIZE - 1) / BLOCK_SIZE with hL
    have hL10000 : L = 10000 := by
      rw [hL]
      simp only [BLOCK_SIZE] at hgt hle hmis ⊢
      omega
    have hwrapI : wrapI L = ((L : Nat) : Int) := by
      unfold wrapI
      rw [Nat.mod_eq_of_lt (by omega)]
      rw [if_pos (by omega)]
    have hfuel : (((10000 : Int)) - ((L : Nat) : Int)).toNat = 0 := by omega
    have h0n : 0 < n := by
      simp only [BLOCK_SIZE] at hgt
      omega
    simp only [block_truncate]
    rw [if_neg (show ¬(n : Int) < 0 by omega)]
    simp only [Int.toNat_natCast, ← hL, hwrapI, hfuel]
    rw [show trunc_loop flen locked 0 ((L : Nat) : Int) fs = (true, fs) from rfl]
    simp only [if_true]
    rw [if_pos ⟨h0n, hmis⟩, if_neg (by rw [pathBad_long hlong]; simp)]
  · show min (flen + 7) (MAX_PATH_LEN - 1) = MAX_PATH_LEN - 1
    simp only [MAX_PATH_LEN]
    omega
  · simp only [MAX_PATH_LEN]
    omega

/-- Witness for C8 amended: a read on a handle with a 1017-character file
name fails with -1. -/
theorem C8_witness :
    block_read (some ⟨1017⟩) 1 0 emptyFS = (-1, []) :=
  (C8_path_too_long 1017 (by omega) emptyFS 1 0 [] (fun _ => false) 0).1
    (by decide) (by decide)
